import Mathlib

/-!
Verification of the multi-document versioned filesystem engine
(`AutomergeFsMultiDoc` in `src/services/AutomergeFs.ts`) and the
content-addressed blob store (`FileSystemBlobStore` in `src/services/BlobStore.ts`).

The TypeScript code is shallowly embedded: JS object maps become association
lists, per-file Automerge documents become records holding the document's
`content` string (as a list of Unicode code points) and a version counter
standing for the document's heads, byte arrays become `List Nat`, and the
SHA-256 hex digest produced by `Bun.CryptoHasher` is an abstract parameter
`hashHex`.  `TextEncoder`/`TextDecoder` are embedded as executable UTF-8
encoding and (strict and replacement-character) decoding over code points.
-/

set_option maxHeartbeats 1000000
set_option maxRecDepth 8000

namespace AmFs

/-! ## Association lists (JS object maps / `Map`) -/

def alookup {α β : Type} [DecidableEq α] : List (α × β) → α → Option β
  | [], _ => none
  | (k, v) :: rest, a => if k = a then some v else alookup rest a

def ainsert {α β : Type} [DecidableEq α] (l : List (α × β)) (k : α) (v : β) :
    List (α × β) :=
  (k, v) :: l.filter (fun kv => kv.1 ≠ k)

def aerase {α β : Type} [DecidableEq α] (l : List (α × β)) (k : α) :
    List (α × β) :=
  l.filter (fun kv => kv.1 ≠ k)

theorem alookup_filter_ne {α β : Type} [DecidableEq α] (l : List (α × β)) (k q : α) :
    alookup (l.filter (fun kv => kv.1 ≠ k)) q =
      if q = k then none else alookup l q := by
  induction l with
  | nil => by_cases h : q = k <;> simp [alookup, h]
  | cons kv rest ih =>
    by_cases hk : kv.1 = k
    · have hf : (kv :: rest).filter (fun kv => kv.1 ≠ k) =
          rest.filter (fun kv => kv.1 ≠ k) := by
        simp [List.filter_cons, hk]
      rw [hf, ih]
      by_cases hq : q = k
      · simp [hq]
      · rw [if_neg hq, if_neg hq]
        have hne : ¬ kv.1 = q := by rw [hk]; exact fun hh => hq hh.symm
        simp [alookup, hne]
    · have hf : (kv :: rest).filter (fun kv => kv.1 ≠ k) =
          kv :: rest.filter (fun kv => kv.1 ≠ k) := by
        simp [List.filter_cons, hk]
      rw [hf]
      by_cases hq : kv.1 = q
      · have hqk : ¬ q = k := fun hh => hk (hq ▸ hh)
        simp [alookup, hq, hqk]
      · simp only [alookup, if_neg hq]
        rw [ih]

theorem alookup_ainsert {α β : Type} [DecidableEq α] (l : List (α × β)) (k : α)
    (v : β) (q : α) :
    alookup (ainsert l k v) q = if q = k then some v else alookup l q := by
  by_cases h : q = k
  · simp [ainsert, alookup, h]
  · have hk : ¬ k = q := fun hh => h hh.symm
    simp only [ainsert, alookup, if_neg hk, if_neg h]
    rw [alookup_filter_ne, if_neg h]

theorem alookup_aerase {α β : Type} [DecidableEq α] (l : List (α × β)) (k q : α) :
    alookup (aerase l k) q = if q = k then none else alookup l q :=
  alookup_filter_ne l k q

theorem aerase_of_not_mem {α β : Type} [DecidableEq α] (l : List (α × β)) (k : α)
    (h : alookup l k = none) : aerase l k = l := by
  induction l with
  | nil => rfl
  | cons kv rest ih =>
    simp only [alookup] at h
    by_cases hk : kv.1 = k
    · rw [if_pos hk] at h; cases h
    · rw [if_neg hk] at h
      have h2 : aerase rest k = rest := ih h
      unfold aerase at h2 ⊢
      rw [List.filter_cons, if_pos (by simp [hk]), h2]

/-! ## UTF-8 encoding and decoding

`TextEncoder().encode` over Unicode scalar values, and `TextDecoder` in both
strict (`fatal: true`, used by `isBinary`) and replacement-character mode
(the default, used when re-reading bytes as text), following the WHATWG
UTF-8 decoder state machine. -/

def utf8EncodeChar (n : Nat) : List Nat :=
  if n < 0x80 then [n]
  else if n < 0x800 then [0xC0 + n / 64, 0x80 + n % 64]
  else if n < 0x10000 then [0xE0 + n / 4096, 0x80 + n / 64 % 64, 0x80 + n % 64]
  else [0xF0 + n / 262144, 0x80 + n / 4096 % 64, 0x80 + n / 64 % 64, 0x80 + n % 64]

def utf8Encode : List Nat → List Nat
  | [] => []
  | c :: rest => utf8EncodeChar c ++ utf8Encode rest

/-- Lower bound for the first continuation byte, per the WHATWG decoder. -/
def utf8Lo (b : Nat) : Nat :=
  if b = 0xE0 then 0xA0 else if b = 0xF0 then 0x90 else 0x80

/-- Upper bound for the first continuation byte, per the WHATWG decoder. -/
def utf8Hi (b : Nat) : Nat :=
  if b = 0xED then 0x9F else if b = 0xF4 then 0x8F else 0xBF

/-- Parse one scalar from lead byte `b` followed by `rest`.  Returns the
decoded scalar (or `none` on a malformed sequence) together with the number
of bytes consumed (the maximal subpart on failure). -/
def utf8Parse1 (b : Nat) (rest : List Nat) : Option Nat × Nat :=
  if b < 0x80 then (some b, 1)
  else if 0xC2 ≤ b ∧ b ≤ 0xDF then
    match rest with
    | c1 :: _ =>
      if 0x80 ≤ c1 ∧ c1 ≤ 0xBF then (some ((b - 0xC0) * 64 + (c1 - 0x80)), 2)
      else (none, 1)
    | [] => (none, 1)
  else if 0xE0 ≤ b ∧ b ≤ 0xEF then
    match rest with
    | c1 :: rest1 =>
      if utf8Lo b ≤ c1 ∧ c1 ≤ utf8Hi b then
        match rest1 with
        | c2 :: _ =>
          if 0x80 ≤ c2 ∧ c2 ≤ 0xBF then
            (some ((b - 0xE0) * 4096 + (c1 - 0x80) * 64 + (c2 - 0x80)), 3)
          else (none, 2)
        | [] => (none, 2)
      else (none, 1)
    | [] => (none, 1)
  else if 0xF0 ≤ b ∧ b ≤ 0xF4 then
    match rest with
    | c1 :: rest1 =>
      if utf8Lo b ≤ c1 ∧ c1 ≤ utf8Hi b then
        match rest1 with
        | c2 :: rest2 =>
          if 0x80 ≤ c2 ∧ c2 ≤ 0xBF then
            match rest2 with
            | c3 :: _ =>
              if 0x80 ≤ c3 ∧ c3 ≤ 0xBF then
                (some ((b - 0xF0) * 262144 + (c1 - 0x80) * 4096 +
                  (c2 - 0x80) * 64 + (c3 - 0x80)), 4)
              else (none, 3)
            | [] => (none, 3)
          else (none, 2)
        | [] => (none, 2)
      else (none, 1)
    | [] => (none, 1)
  else (none, 1)

/-- Strict decoding with fuel (`TextDecoder` with `fatal: true`). -/
def utf8DecodeStrictF : Nat → List Nat → Option (List Nat)
  | 0, _ => none
  | _, [] => some []
  | fuel + 1, b :: rest =>
    match utf8Parse1 b rest with
    | (some n, k) => (utf8DecodeStrictF fuel (rest.drop (k - 1))).map (n :: ·)
    | (none, _) => none

def utf8DecodeStrict (l : List Nat) : Option (List Nat) :=
  utf8DecodeStrictF (l.length + 1) l

/-- Replacement-character decoding with fuel (the UTF-8 state machine of
`TextDecoder` without BOM handling). -/
def utf8DecodeLossyF : Nat → List Nat → List Nat
  | 0, _ => []
  | _, [] => []
  | fuel + 1, b :: rest =>
    match utf8Parse1 b rest with
    | (some n, k) => n :: utf8DecodeLossyF fuel (rest.drop (k - 1))
    | (none, k) => 0xFFFD :: utf8DecodeLossyF fuel (rest.drop (k - 1))

/-- WHATWG "UTF-8 decode": with the default `ignoreBOM: false`, a leading
`0xEF 0xBB 0xBF` byte-order mark is removed before decoding. -/
def stripBOMBytes (l : List Nat) : List Nat :=
  match l with
  | b0 :: b1 :: b2 :: rest =>
    if b0 = 0xEF ∧ b1 = 0xBB ∧ b2 = 0xBF then rest else l
  | _ => l

/-- `new TextDecoder().decode(bytes)`: replacement-character decoding with
the default leading-BOM stripping. -/
def utf8DecodeLossy (l : List Nat) : List Nat :=
  utf8DecodeLossyF (l.length + 1) (stripBOMBytes l)

/-- `isBinary` from `AutomergeFs.ts`: bytes are binary iff strict UTF-8
decoding fails. -/
def isBinary (bytes : List Nat) : Bool :=
  (utf8DecodeStrict bytes).isNone

theorem utf8Lo_le (b : Nat) (c1 : Nat) (h : utf8Lo b ≤ c1) : 0x80 ≤ c1 := by
  unfold utf8Lo at h
  split at h
  · omega
  · split at h <;> omega

theorem utf8Hi_ge (b : Nat) (c1 : Nat) (h : c1 ≤ utf8Hi b) : c1 ≤ 0xBF := by
  unfold utf8Hi at h
  split at h
  · omega
  · split at h <;> omega

theorem utf8EncodeChar_one (n : Nat) (h : n < 0x80) : utf8EncodeChar n = [n] := by
  simp [utf8EncodeChar, h]

theorem utf8EncodeChar_two (b c1 : Nat) (hb : 0xC2 ≤ b ∧ b ≤ 0xDF)
    (hc : 0x80 ≤ c1 ∧ c1 ≤ 0xBF) :
    utf8EncodeChar ((b - 0xC0) * 64 + (c1 - 0x80)) = [b, c1] := by
  obtain ⟨hb1, hb2⟩ := hb
  obtain ⟨hc1, hc2⟩ := hc
  have hd : ((b - 0xC0) * 64 + (c1 - 0x80)) / 64 = b - 0xC0 := by omega
  have hm : ((b - 0xC0) * 64 + (c1 - 0x80)) % 64 = c1 - 0x80 := by omega
  simp only [utf8EncodeChar]
  rw [if_neg (by omega), if_pos (by omega), hd, hm]
  have e1 : 0xC0 + (b - 0xC0) = b := by omega
  have e2 : 0x80 + (c1 - 0x80) = c1 := by omega
  rw [e1, e2]

theorem utf8EncodeChar_three (b c1 c2 : Nat) (hb : 0xE0 ≤ b ∧ b ≤ 0xEF)
    (hc1 : utf8Lo b ≤ c1 ∧ c1 ≤ utf8Hi b) (hc2 : 0x80 ≤ c2 ∧ c2 ≤ 0xBF) :
    utf8EncodeChar ((b - 0xE0) * 4096 + (c1 - 0x80) * 64 + (c2 - 0x80)) =
      [b, c1, c2] := by
  obtain ⟨hb1, hb2⟩ := hb
  have hlo2 : 0x80 ≤ c1 := utf8Lo_le b c1 hc1.1
  have hhi2 : c1 ≤ 0xBF := utf8Hi_ge b c1 hc1.2
  have hA : 0xA0 ≤ c1 ∨ b ≠ 0xE0 := by
    by_cases hx : b = 0xE0
    · left; have := hc1.1; simpa [utf8Lo, hx] using this
    · right; exact hx
  set m := (b - 0xE0) * 4096 + (c1 - 0x80) * 64 + (c2 - 0x80) with hm
  have hge : 0x800 ≤ m := by
    rcases hA with hc | hbne
    · omega
    · have : 0xE1 ≤ b := by omega
      omega
  have hlt : m < 0x10000 := by omega
  have e1 : m / 4096 = b - 0xE0 := by omega
  have e2 : m / 64 % 64 = c1 - 0x80 := by omega
  have e3 : m % 64 = c2 - 0x80 := by omega
  simp only [utf8EncodeChar]
  rw [if_neg (by omega), if_neg (by omega), if_pos hlt, e1, e2, e3]
  have f1 : 0xE0 + (b - 0xE0) = b := by omega
  have f2 : 0x80 + (c1 - 0x80) = c1 := by omega
  have f3 : 0x80 + (c2 - 0x80) = c2 := by omega
  rw [f1, f2, f3]

theorem utf8EncodeChar_four (b c1 c2 c3 : Nat) (hb : 0xF0 ≤ b ∧ b ≤ 0xF4)
    (hc1 : utf8Lo b ≤ c1 ∧ c1 ≤ utf8Hi b) (hc2 : 0x80 ≤ c2 ∧ c2 ≤ 0xBF)
    (hc3 : 0x80 ≤ c3 ∧ c3 ≤ 0xBF) :
    utf8EncodeChar ((b - 0xF0) * 262144 + (c1 - 0x80) * 4096 +
      (c2 - 0x80) * 64 + (c3 - 0x80)) = [b, c1, c2, c3] := by
  obtain ⟨hb1, hb2⟩ := hb
  have hlo2 : 0x80 ≤ c1 := utf8Lo_le b c1 hc1.1
  have hhi2 : c1 ≤ 0xBF := utf8Hi_ge b c1 hc1.2
  have hA : 0x90 ≤ c1 ∨ b ≠ 0xF0 := by
    by_cases hx : b = 0xF0
    · left; have := hc1.1; simpa [utf8Lo, hx] using this
    · right; exact hx
  set m := (b - 0xF0) * 262144 + (c1 - 0x80) * 4096 +
    (c2 - 0x80) * 64 + (c3 - 0x80) with hm
  have hge : 0x10000 ≤ m := by
    rcases hA with hc | hbne
    · omega
    · have : 0xF1 ≤ b := by omega
      omega
  have e1 : m / 262144 = b - 0xF0 := by omega
  have e2 : m / 4096 % 64 = c1 - 0x80 := by omega
  have e3 : m / 64 % 64 = c2 - 0x80 := by omega
  have e4 : m % 64 = c3 - 0x80 := by omega
  simp only [utf8EncodeChar]
  rw [if_neg (by omega), if_neg (by omega), if_neg (by omega), e1, e2, e3, e4]
  have f1 : 0xF0 + (b - 0xF0) = b := by omega
  have f2 : 0x80 + (c1 - 0x80) = c1 := by omega
  have f3 : 0x80 + (c2 - 0x80) = c2 := by omega
  have f4 : 0x80 + (c3 - 0x80) = c3 := by omega
  rw [f1, f2, f3, f4]

theorem utf8Parse1_encode (b : Nat) (rest : List Nat) (n k : Nat)
    (h : utf8Parse1 b rest = (some n, k)) :
    utf8EncodeChar n = b :: rest.take (k - 1) := by
  rcases rest with _ | ⟨c1, _ | ⟨c2, _ | ⟨c3, r3⟩⟩⟩ <;>
    simp only [utf8Parse1] at h <;>
    split_ifs at h <;>
    injection h with hv hk <;>
    first
      | exact Option.noConfusion hv
      | (injection hv with hn; subst hn; subst hk)
  · exact utf8EncodeChar_one b (by assumption)
  · exact utf8EncodeChar_one b (by assumption)
  · simpa using utf8EncodeChar_two b c1 (by assumption) (by assumption)
  · exact utf8EncodeChar_one b (by assumption)
  · simpa using utf8EncodeChar_two b c1 (by assumption) (by assumption)
  · simpa using
      utf8EncodeChar_three b c1 c2 (by assumption) (by assumption) (by assumption)
  · exact utf8EncodeChar_one b (by assumption)
  · simpa using utf8EncodeChar_two b c1 (by assumption) (by assumption)
  · simpa using
      utf8EncodeChar_three b c1 c2 (by assumption) (by assumption) (by assumption)
  · simpa using
      utf8EncodeChar_four b c1 c2 c3 (by assumption) (by assumption)
        (by assumption) (by assumption)

theorem utf8DecodeStrictF_encode (fuel : Nat) :
    ∀ (l s : List Nat), utf8DecodeStrictF fuel l = some s → utf8Encode s = l := by
  induction fuel with
  | zero => intro l s h; cases l <;> cases h
  | succ fuel ih =>
    intro l s h
    cases l with
    | nil => cases h; rfl
    | cons b rest =>
      simp only [utf8DecodeStrictF] at h
      rcases hp : utf8Parse1 b rest with ⟨o, k⟩
      rw [hp] at h
      cases o with
      | none => exact Option.noConfusion h
      | some n =>
        have h2 : (utf8DecodeStrictF fuel (rest.drop (k - 1))).map
            (fun x => n :: x) = some s := h
        rcases hrec : utf8DecodeStrictF fuel (rest.drop (k - 1)) with _ | s1
        · rw [hrec] at h2; cases h2
        · rw [hrec] at h2
          simp only [Option.map, Option.some.injEq] at h2
          subst h2
          have henc := utf8Parse1_encode b rest n k hp
          have hrest := ih (rest.drop (k - 1)) s1 hrec
          simp only [utf8Encode, henc, hrest]
          simp [List.take_append_drop]

theorem utf8DecodeStrict_encode (l s : List Nat)
    (h : utf8DecodeStrict l = some s) : utf8Encode s = l :=
  utf8DecodeStrictF_encode (l.length + 1) l s h

theorem utf8DecodeLossyF_of_strict (fuel : Nat) :
    ∀ (l s : List Nat), utf8DecodeStrictF fuel l = some s →
      utf8DecodeLossyF fuel l = s := by
  induction fuel with
  | zero => intro l s h; cases l <;> cases h
  | succ fuel ih =>
    intro l s h
    cases l with
    | nil => cases h; rfl
    | cons b rest =>
      simp only [utf8DecodeStrictF] at h
      rcases hp : utf8Parse1 b rest with ⟨o, k⟩
      rw [hp] at h
      cases o with
      | none => exact Option.noConfusion h
      | some n =>
        have h2 : (utf8DecodeStrictF fuel (rest.drop (k - 1))).map
            (fun x => n :: x) = some s := h
        rcases hrec : utf8DecodeStrictF fuel (rest.drop (k - 1)) with _ | s1
        · rw [hrec] at h2; cases h2
        · rw [hrec] at h2
          simp only [Option.map, Option.some.injEq] at h2
          subst h2
          show (match utf8Parse1 b rest with
            | (some n, k) => n :: utf8DecodeLossyF fuel (rest.drop (k - 1))
            | (none, k) => 0xFFFD :: utf8DecodeLossyF fuel (rest.drop (k - 1))) =
              n :: s1
          rw [hp]
          exact congrArg (n :: ·) (ih (rest.drop (k - 1)) s1 hrec)

theorem utf8DecodeLossy_of_strict (l s : List Nat)
    (hnb : stripBOMBytes l = l)
    (h : utf8DecodeStrict l = some s) : utf8DecodeLossy l = s := by
  unfold utf8DecodeLossy
  rw [hnb]
  exact utf8DecodeLossyF_of_strict (l.length + 1) l s h

end AmFs

namespace AmFs

/-! ## Paths

`normalizePath`, `getParentPath`, `getBasename` from `AutomergeFs.ts`:
`path.replace(/\/+$/, "").replace(/\/+/g, "/")`,
`path.split("/").filter(p => p)` with slice/join, and the last segment. -/

/-- One step of `replace(/\/+$/, "")`, processing from the right: a slash
followed only by already-removed trailing slashes is removed. -/
def stripStep (c : Char) (acc : List Char) : List Char :=
  if c = '/' ∧ acc = [] then [] else c :: acc

def stripTrailingSlashes (l : List Char) : List Char :=
  l.foldr stripStep []

/-- One step of `replace(/\/+/g, "/")`, processing from the right: a slash
directly before a slash is dropped. -/
def collapseStep (c : Char) (acc : List Char) : List Char :=
  if c = '/' ∧ acc.head? = some '/' then acc else c :: acc

def collapseSlashes (l : List Char) : List Char :=
  l.foldr collapseStep []

def normalizePath (p : List Char) : List Char :=
  if p = ['/'] then ['/'] else collapseSlashes (stripTrailingSlashes p)

/-- `path.split("/")` (keeping empty segments). -/
def splitOnSlash : List Char → List (List Char)
  | [] => [[]]
  | c :: rest =>
    if c = '/' then [] :: splitOnSlash rest
    else
      match splitOnSlash rest with
      | [] => [[c]]
      | g :: gs => (c :: g) :: gs

/-- `path.split("/").filter(p => p)`. -/
def pathParts (s : List Char) : List (List Char) :=
  (splitOnSlash s).filter (fun g => ¬ g.isEmpty)

/-- `Array.prototype.join("/")`. -/
def joinSlash : List (List Char) → List Char
  | [] => []
  | [g] => g
  | g :: gs => g ++ '/' :: joinSlash gs

def getParentPath (p : List Char) : List Char :=
  if p = ['/'] then ['/']
  else
    if (pathParts p).length = 1 then ['/']
    else '/' :: joinSlash (pathParts p).dropLast

def getBasename (p : List Char) : List Char :=
  if p = ['/'] then ['/']
  else
    match (pathParts p).getLast? with
    | some seg => seg
    | none => []

/-! ### Shape predicates and facts about normalization -/

def headSlash (l : List Char) : Bool := l.head? = some '/'

def endsSlash : List Char → Bool
  | [] => false
  | [c] => c = '/'
  | _ :: rest => endsSlash rest

def noDoubleSlash : List Char → Bool
  | a :: b :: rest => !(a = '/' && b = '/') && noDoubleSlash (b :: rest)
  | _ => true

theorem endsSlash_cons (c : Char) (l : List Char) (h : l ≠ []) :
    endsSlash (c :: l) = endsSlash l := by
  cases l with
  | nil => cases h rfl
  | cons d r => rfl

theorem strip_cons (c : Char) (l : List Char) :
    stripTrailingSlashes (c :: l) =
      if c = '/' ∧ stripTrailingSlashes l = [] then []
      else c :: stripTrailingSlashes l := rfl

theorem collapse_cons (c : Char) (l : List Char) :
    collapseSlashes (c :: l) =
      if c = '/' ∧ (collapseSlashes l).head? = some '/' then collapseSlashes l
      else c :: collapseSlashes l := rfl

theorem strip_endsSlash (l : List Char) :
    endsSlash (stripTrailingSlashes l) = false := by
  induction l with
  | nil => rfl
  | cons c l ih =>
    rw [strip_cons]
    split
    · rfl
    · rename_i h
      rcases hs : stripTrailingSlashes l with _ | ⟨d, r⟩
      · have hc : ¬ c = '/' := fun hc => h ⟨hc, hs⟩
        simp [endsSlash, hc]
      · rw [hs] at ih
        rw [endsSlash_cons c _ (by simp [hs])]
        exact ih

theorem strip_of_endsSlash (l : List Char) (h : endsSlash l = false) :
    stripTrailingSlashes l = l := by
  induction l with
  | nil => rfl
  | cons c l ih =>
    rw [strip_cons]
    cases l with
    | nil =>
      have hc : ¬ c = '/' := by simpa [endsSlash] using h
      simp [stripTrailingSlashes, hc]
    | cons d r =>
      have h2 : endsSlash (d :: r) = false := h
      rw [ih h2]
      simp

theorem strip_keeps (l : List Char) (c : Char) (hc : ¬ c = '/') (hm : c ∈ l) :
    c ∈ stripTrailingSlashes l := by
  induction l with
  | nil => cases hm
  | cons d r ih =>
    rw [strip_cons]
    split
    · rename_i h
      rcases List.mem_cons.mp hm with hcd | hcr
      · exact absurd (hcd.trans h.1) hc
      · have := ih hcr; rw [h.2] at this; cases this
    · rcases List.mem_cons.mp hm with hcd | hcr
      · exact hcd ▸ List.mem_cons_self _ _
      · exact List.mem_cons_of_mem _ (ih hcr)

theorem collapse_head (l : List Char) :
    (collapseSlashes l).head? = l.head? := by
  induction l with
  | nil => rfl
  | cons c r ih =>
    rw [collapse_cons]
    split
    · rename_i h
      have h2 : r.head? = some '/' := by rw [← ih]; exact h.2
      rw [ih, h2, h.1]
      simp
    · simp

theorem collapse_nil_iff (l : List Char) :
    collapseSlashes l = [] ↔ l = [] := by
  constructor
  · intro h
    have := collapse_head l
    rw [h] at this
    cases l with
    | nil => rfl
    | cons c r => simp at this
  · intro h; rw [h]; rfl

theorem collapse_noDouble (l : List Char) :
    noDoubleSlash (collapseSlashes l) = true := by
  induction l with
  | nil => rfl
  | cons c r ih =>
    rw [collapse_cons]
    split
    · exact ih
    · rename_i h
      rcases hc : collapseSlashes r with _ | ⟨d, t⟩
      · rfl
      · rw [hc] at ih h
        have hnd : ¬(c = '/' ∧ d = '/') := fun hh => h ⟨hh.1, by simp [hh.2]⟩
        show (!(c = '/' && d = '/') && noDoubleSlash (d :: t)) = true
        rw [ih]
        by_cases h1 : c = '/' <;> by_cases h2 : d = '/' <;> simp [h1, h2]
        exact hnd ⟨h1, h2⟩

theorem collapse_of_noDouble (l : List Char) (h : noDoubleSlash l = true) :
    collapseSlashes l = l := by
  induction l with
  | nil => rfl
  | cons c r ih =>
    have hr : noDoubleSlash r = true := by
      cases r with
      | nil => rfl
      | cons d t =>
        have h2 : (!(c = '/' && d = '/') && noDoubleSlash (d :: t)) = true := h
        simp only [Bool.and_eq_true] at h2
        exact h2.2
    rw [collapse_cons, ih hr]
    split
    · rename_i hcond
      exfalso
      cases r with
      | nil => simp at hcond
      | cons d t =>
        have hd : d = '/' := by
          have := hcond.2; simpa using this
        have h2 : (!(c = '/' && d = '/') && noDoubleSlash (d :: t)) = true := h
        simp only [Bool.and_eq_true] at h2
        have := h2.1
        rw [hcond.1, hd] at this
        simp at this
    · rfl

theorem collapse_endsSlash (l : List Char) :
    endsSlash (collapseSlashes l) = endsSlash l := by
  induction l with
  | nil => rfl
  | cons c r ih =>
    rw [collapse_cons]
    by_cases hrnil : r = []
    · subst hrnil
      simp [collapseSlashes, endsSlash]
    · have hcne : collapseSlashes r ≠ [] := fun hx => hrnil ((collapse_nil_iff r).mp hx)
      rw [endsSlash_cons c r hrnil]
      split
      · exact ih
      · rw [endsSlash_cons c _ hcne]
        exact ih

theorem normalizePath_idem (p : List Char) :
    normalizePath (normalizePath p) = normalizePath p := by
  unfold normalizePath
  split
  · simp [normalizePath]
  · split
    · rename_i h2
      rw [h2]
    · rw [strip_of_endsSlash _ (by rw [collapse_endsSlash]; exact strip_endsSlash p),
        collapse_of_noDouble _ (collapse_noDouble _)]

theorem splitOnSlash_ne_nil (s : List Char) : splitOnSlash s ≠ [] := by
  cases s with
  | nil => simp [splitOnSlash]
  | cons c rest =>
    unfold splitOnSlash
    split
    · simp
    · rcases h : splitOnSlash rest with _ | ⟨g, gs⟩ <;> simp

theorem splitOnSlash_no_slash (s : List Char) :
    ∀ g ∈ splitOnSlash s, '/' ∉ g := by
  induction s with
  | nil =>
    intro g hg
    simp [splitOnSlash] at hg
    simp [hg]
  | cons c rest ih =>
    intro g hg
    unfold splitOnSlash at hg
    split at hg
    · rcases List.mem_cons.mp hg with h | h
      · simp [h]
      · exact ih g h
    · rename_i hc
      rcases hsp : splitOnSlash rest with _ | ⟨g0, gs⟩
      · exact absurd hsp (splitOnSlash_ne_nil rest)
      · rw [hsp] at hg
        rcases List.mem_cons.mp hg with h | h
        · subst h
          intro hmem
          rcases List.mem_cons.mp hmem with h2 | h2
          · exact hc h2.symm
          · exact ih g0 (hsp ▸ List.mem_cons_self _ _) h2
        · exact ih g (hsp ▸ List.mem_cons_of_mem _ h)

theorem pathParts_good (s : List Char) :
    ∀ g ∈ pathParts s, g ≠ [] ∧ '/' ∉ g := by
  intro g hg
  unfold pathParts at hg
  have hmem := List.mem_of_mem_filter hg
  have hfil := List.of_mem_filter hg
  refine ⟨?_, splitOnSlash_no_slash s g hmem⟩
  intro hnil
  rw [hnil] at hfil
  simp at hfil

theorem endsSlash_of_no_slash (g : List Char) (h : '/' ∉ g) :
    endsSlash g = false := by
  induction g with
  | nil => rfl
  | cons c r ih =>
    have hc : ¬ c = '/' := fun hc => h (hc ▸ List.mem_cons_self _ _)
    cases r with
    | nil =>
      simp only [endsSlash]
      simpa using hc
    | cons d t =>
      rw [endsSlash_cons c _ (by simp)]
      exact ih (fun hm => h (List.mem_cons_of_mem _ hm))

theorem noDouble_cons_ok (c : Char) (l : List Char)
    (h1 : noDoubleSlash l = true)
    (h2 : ¬(c = '/' ∧ l.head? = some '/')) : noDoubleSlash (c :: l) = true := by
  cases l with
  | nil => rfl
  | cons d t =>
    have hd : ¬(c = '/' ∧ d = '/') := fun hh => h2 ⟨hh.1, by simp [hh.2]⟩
    show (!(c = '/' && d = '/') && noDoubleSlash (d :: t)) = true
    rw [h1]
    by_cases hc : c = '/' <;> by_cases hdd : d = '/' <;> simp [hc, hdd]
    exact hd ⟨hc, hdd⟩

theorem noDouble_of_no_slash (g : List Char) (h : '/' ∉ g) :
    noDoubleSlash g = true := by
  induction g with
  | nil => rfl
  | cons c r ih =>
    have hc : ¬ c = '/' := fun hc => h (hc ▸ List.mem_cons_self _ _)
    refine noDouble_cons_ok c r (ih (fun hm => h (List.mem_cons_of_mem _ hm))) ?_
    exact fun hh => hc hh.1

theorem noDouble_append (g t : List Char) (hg : '/' ∉ g)
    (ht : noDoubleSlash t = true) : noDoubleSlash (g ++ t) = true := by
  induction g with
  | nil => exact ht
  | cons c r ih =>
    have hc : ¬ c = '/' := fun hc => hg (hc ▸ List.mem_cons_self _ _)
    rw [List.cons_append]
    refine noDouble_cons_ok c (r ++ t)
      (ih (fun hm => hg (List.mem_cons_of_mem _ hm))) ?_
    exact fun hh => hc hh.1

theorem endsSlash_append (g t : List Char) (ht : t ≠ []) :
    endsSlash (g ++ t) = endsSlash t := by
  induction g with
  | nil => rfl
  | cons c r ih =>
    have hne : (r ++ t) ≠ [] := by simp [ht]
    rw [List.cons_append, endsSlash_cons c _ hne, ih]

theorem joinSlash_good (gs : List (List Char))
    (h : ∀ g ∈ gs, g ≠ [] ∧ '/' ∉ g) (hne : gs ≠ []) :
    noDoubleSlash ('/' :: joinSlash gs) = true ∧
      endsSlash ('/' :: joinSlash gs) = false := by
  induction gs with
  | nil => cases hne rfl
  | cons g rest ih =>
    obtain ⟨hgne, hgs⟩ := h g (List.mem_cons_self _ _)
    cases rest with
    | nil =>
      constructor
      · show noDoubleSlash ('/' :: g) = true
        refine noDouble_cons_ok '/' g (noDouble_of_no_slash g hgs) ?_
        intro hh
        cases g with
        | nil => simp at hh
        | cons d t =>
          have : d = '/' := by simpa using hh.2
          exact hgs (this ▸ List.mem_cons_self _ _)
      · show endsSlash ('/' :: g) = false
        rw [endsSlash_cons _ _ hgne]
        exact endsSlash_of_no_slash g hgs
    | cons g2 rest2 =>
      have ih2 := ih (fun x hx => h x (List.mem_cons_of_mem _ hx)) (by simp)
      have hjoin : joinSlash (g :: g2 :: rest2) = g ++ '/' :: joinSlash (g2 :: rest2) := rfl
      rw [hjoin]
      constructor
      · refine noDouble_cons_ok '/' (g ++ '/' :: joinSlash (g2 :: rest2))
          (noDouble_append g _ hgs ih2.1) ?_
        intro hh
        cases g with
        | nil => cases hgne rfl
        | cons d t =>
          have : d = '/' := by simpa using hh.2
          exact hgs (this ▸ List.mem_cons_self _ _)
      · rw [endsSlash_cons _ _ (by simp), endsSlash_append g _ (by simp)]
        exact ih2.2

theorem getParentPath_normalized (p : List Char) :
    normalizePath (getParentPath p) = getParentPath p := by
  unfold getParentPath
  split
  · simp [normalizePath]
  · split
    · simp [normalizePath]
    · rcases hd : (pathParts p).dropLast with _ | ⟨g, gs⟩
      · simp [joinSlash, normalizePath]
      · have hgood : ∀ g2 ∈ (pathParts p).dropLast, g2 ≠ [] ∧ '/' ∉ g2 := by
          intro g2 hg2
          exact pathParts_good p g2 (List.dropLast_subset _ hg2)
        have hj := joinSlash_good (pathParts p).dropLast hgood (by rw [hd]; simp)
        rw [hd] at hj
        unfold normalizePath
        split
        · rename_i hone
          exact hone.symm
        · rw [strip_of_endsSlash _ hj.2, collapse_of_noDouble _ hj.1]

theorem normalizePath_shape (s : List Char) (h1 : headSlash s = true)
    (h2 : s.any (fun c => ¬ c = '/') = true) :
    headSlash (normalizePath s) = true ∧
      noDoubleSlash (normalizePath s) = true ∧
      endsSlash (normalizePath s) = false := by
  have hs : s ≠ ['/'] := by
    intro he; rw [he] at h2; simp at h2
  unfold normalizePath
  rw [if_neg hs]
  refine ⟨?_, collapse_noDouble _, by rw [collapse_endsSlash]; exact strip_endsSlash s⟩
  obtain ⟨c, hcm, hcs⟩ : ∃ c, c ∈ s ∧ ¬ c = '/' := by
    simpa using h2
  have hkeep := strip_keeps s c hcs hcm
  cases s with
  | nil => cases hcm
  | cons a r =>
    have ha : a = '/' := by
      simp only [headSlash, List.head?] at h1
      simpa using h1
    unfold headSlash
    rw [collapse_head]
    rw [strip_cons]
    split
    · rename_i hcond
      rw [strip_cons, if_pos hcond] at hkeep
      cases hkeep
    · simp [ha]

/-! ## Data model

`FsRootDoc` / `TreeEntry` / `FileDoc` from `AutomergeFs.ts`.  Documents live
in a `Store` (the `Repo` plus its `StorageAdapter` and the blob directory);
an `Engine` is an `AutomergeFsMultiDoc` instance: a handle (id) onto the
root document plus the `fileHandles` cache.  Automerge document heads are
abstracted by a version counter bumped on every `change`. -/

inductive EKind
  | file
  | directory
deriving DecidableEq

structure Metadata where
  size : Nat
  mode : Nat
  mtime : Nat
  ctime : Nat
deriving DecidableEq

structure TreeEntry where
  type : EKind
  parent : Option (List Char)
  name : List Char
  metadata : Metadata
  fileDocId : Option Nat := none
  blobHash : Option (List Char) := none
deriving DecidableEq

structure FileDoc where
  content : List Nat
  version : Nat
deriving DecidableEq

structure Store where
  rootTrees : List (Nat × List (List Char × TreeEntry))
  fileDocs : List (Nat × FileDoc)
  blobs : List (List Char × List Nat)
  nextDocId : Nat
deriving DecidableEq

structure Engine where
  store : Store
  rootUrl : Nat
  fileHandles : List Nat
deriving DecidableEq

def Engine.curTree (e : Engine) : List (List Char × TreeEntry) :=
  (alookup e.store.rootTrees e.rootUrl).getD []

def Engine.setTree (e : Engine) (t : List (List Char × TreeEntry)) : Engine :=
  { e with store := { e.store with rootTrees := ainsert e.store.rootTrees e.rootUrl t } }

def getEntry (e : Engine) (path : List Char) : Option TreeEntry :=
  alookup e.curTree (normalizePath path)

def setEntry (e : Engine) (path : List Char) (en : TreeEntry) : Engine :=
  e.setTree (ainsert e.curTree (normalizePath path) en)

def deleteEntry (e : Engine) (path : List Char) : Engine :=
  e.setTree (aerase e.curTree (normalizePath path))

/-- JS truthiness of an optional string field (`undefined` and `""` are
falsy). -/
def optTruthy (o : Option (List Char)) : Option (List Char) :=
  match o with
  | some [] => none
  | o => o

def setBlob (e : Engine) (h : List Char) (b : List Nat) : Engine :=
  { e with store := { e.store with blobs := ainsert e.store.blobs h b } }

def deleteBlob (e : Engine) (h : List Char) : Engine :=
  { e with store := { e.store with blobs := aerase e.store.blobs h } }

def addHandle (e : Engine) (d : Nat) : Engine :=
  { e with fileHandles := d :: e.fileHandles }

def evictHandle (e : Engine) (d : Nat) : Engine :=
  { e with fileHandles := e.fileHandles.filter (fun x => x ≠ d) }

/-- `handle.change` with `Automerge.updateText`: afterwards `content`
equals the target text; the heads move. -/
def updateDoc (e : Engine) (d : Nat) (text : List Nat) : Engine :=
  match alookup e.store.fileDocs d with
  | some doc =>
    { e with store := { e.store with
        fileDocs := ainsert e.store.fileDocs d
          { content := text, version := doc.version + 1 } } }
  | none => e

/-- `createFileDoc`: `repo.create()`, one `change` writing the content, and
caching of the new handle.  Returns the new document id. -/
def createFileDoc (e : Engine) (text : List Nat) : Engine × Nat :=
  let d := e.store.nextDocId
  ({ e with
      store := { e.store with
        fileDocs := ainsert e.store.fileDocs d { content := text, version := 1 },
        nextDocId := d + 1 },
      fileHandles := d :: e.fileHandles }, d)

/-! ## Filesystem operations -/

def readFile (e : Engine) (path : List Char) : Option (List Nat) :=
  match getEntry e path with
  | none => none
  | some en =>
    if en.type ≠ EKind.file then none
    else
      match optTruthy en.blobHash with
      | some h =>
        match alookup e.store.blobs h with
        | some blob => some blob
        | none => none
      | none =>
        match en.fileDocId with
        | some d =>
          match alookup e.store.fileDocs d with
          | some doc => some (utf8Encode doc.content)
          | none => none
        | none => some []

inductive FileContent
  | str (s : List Nat)
  | bytes (b : List Nat)
deriving DecidableEq

/-- `typeof content === "string" ? new TextEncoder().encode(content) : content`. -/
def contentBytes : FileContent → List Nat
  | .str s => utf8Encode s
  | .bytes b => b

/-- `typeof content !== "string" && this.isBinary(bytes)`. -/
def contentIsBinary : FileContent → Bool
  | .str _ => false
  | .bytes b => isBinary b

/-- `typeof content === "string" ? content : new TextDecoder().decode(bytes)`. -/
def contentText : FileContent → List Nat
  | .str s => s
  | .bytes b => utf8DecodeLossy b

def writeFile (hashHex : List Nat → List Char) (e : Engine) (path : List Char)
    (content : FileContent) (now : Nat) : Option Engine :=
  let normalized := normalizePath path
  let parentPath := getParentPath normalized
  match getEntry e parentPath with
  | none => none
  | some parent =>
    if parent.type ≠ EKind.directory then none
    else
      let bytes := contentBytes content
      let size := bytes.length
      let binary := contentIsBinary content
      let existing := getEntry e normalized
      if binary then
        let blobHash := hashHex bytes
        let e1 := setBlob e blobHash bytes
        let e2 := match existing with
          | some ex =>
            match ex.fileDocId with
            | some d => evictHandle e1 d
            | none => e1
          | none => e1
        some (setEntry e2 normalized {
          type := EKind.file
          parent := some parentPath
          name := getBasename normalized
          metadata := {
            size := size
            mode := match existing with
              | some ex => ex.metadata.mode
              | none => 0o644
            mtime := now
            ctime := match existing with
              | some ex => ex.metadata.ctime
              | none => now }
          fileDocId := none
          blobHash := some blobHash })
      else
        let text := contentText content
        let step : Option (Engine × Nat) := match existing with
          | some ex =>
            match ex.fileDocId with
            | some d =>
              match alookup e.store.fileDocs d with
              | none => none
              | some _ => some (updateDoc (addHandle e d) d text, d)
            | none => some (createFileDoc e text)
          | none => some (createFileDoc e text)
        match step with
        | none => none
        | some (e1, fileDocId) =>
          let e2 := match existing with
            | some ex =>
              match optTruthy ex.blobHash with
              | some bh => deleteBlob e1 bh
              | none => e1
            | none => e1
          some (setEntry e2 normalized {
            type := EKind.file
            parent := some parentPath
            name := getBasename normalized
            metadata := {
              size := size
              mode := match existing with
                | some ex => ex.metadata.mode
                | none => 0o644
              mtime := now
              ctime := match existing with
                | some ex => ex.metadata.ctime
                | none => now }
            fileDocId := some fileDocId
            blobHash := none })

def appendFile (hashHex : List Nat → List Char) (e : Engine) (path : List Char)
    (content : List Nat) (now : Nat) : Option Engine :=
  let normalized := normalizePath path
  match readFile e normalized with
  | none => writeFile hashHex e normalized (.str content) now
  | some existing =>
    writeFile hashHex e normalized (.str (utf8DecodeLossy existing ++ content)) now

def mkdirEntry (parentPath name : List Char) (now : Nat) : TreeEntry :=
  { type := EKind.directory
    parent := some parentPath
    name := name
    metadata := { size := 0, mode := 0o755, mtime := now, ctime := now }
    fileDocId := none
    blobHash := none }

def mkdirF : Nat → Engine → List Char → Bool → Nat → Option Engine
  | 0, _, _, _, _ => none
  | fuel + 1, e, path, rec, now =>
    let normalized := normalizePath path
    match getEntry e normalized with
    | some existing =>
      if existing.type = EKind.directory then some e else none
    | none =>
      let parentPath := getParentPath normalized
      match getEntry e parentPath with
      | none =>
        if rec then
          match mkdirF fuel e parentPath rec now with
          | none => none
          | some e1 =>
            some (setEntry e1 normalized
              (mkdirEntry parentPath (getBasename normalized) now))
        else none
      | some parent =>
        if parent.type ≠ EKind.directory then none
        else some (setEntry e normalized
          (mkdirEntry parentPath (getBasename normalized) now))

def mkdir (e : Engine) (path : List Char) (rec : Bool) (now : Nat) : Option Engine :=
  mkdirF ((pathParts (normalizePath path)).length + 2) e path rec now

def unlink (e : Engine) (path : List Char) : Option Engine :=
  let normalized := normalizePath path
  match getEntry e normalized with
  | none => none
  | some en =>
    let e1 := if en.type = EKind.file then
        match optTruthy en.blobHash with
        | some h => deleteBlob e h
        | none => e
      else e
    let e2 := if en.type = EKind.file then
        match en.fileDocId with
        | some d => evictHandle e1 d
        | none => e1
      else e1
    some (deleteEntry e2 normalized)

def pathExists (e : Engine) (path : List Char) : Bool :=
  (getEntry e path).isSome

/-- `readdir` restricted to what `rm`/`cp` use: the names of the entries
whose `parent` is the given (normalized) path. -/
def childNames (e : Engine) (normalized : List Char) : List (List Char) :=
  (e.curTree.filter (fun kv => kv.2.parent = some normalized)).map
    (fun kv => kv.2.name)

def rmF : Nat → Engine → List Char → Bool → Option Engine
  | 0, _, _, _ => none
  | fuel + 1, e, path, rec =>
    let normalized := normalizePath path
    match getEntry e normalized with
    | none => none
    | some en =>
      let afterChildren : Option Engine :=
        if en.type = EKind.directory ∧ rec = true then
          (childNames e normalized).foldl
            (fun acc childName =>
              match acc with
              | none => none
              | some e1 =>
                let childPath := if normalized = ['/'] then '/' :: childName
                  else normalized ++ '/' :: childName
                rmF fuel e1 childPath rec)
            (some e)
        else some e
      match afterChildren with
      | none => none
      | some e1 =>
        let e2 := if en.type = EKind.file then
            match optTruthy en.blobHash with
            | some h => deleteBlob e1 h
            | none => e1
          else e1
        let e3 := if en.type = EKind.file then
            match en.fileDocId with
            | some d => evictHandle e2 d
            | none => e2
          else e2
        some (deleteEntry e3 normalized)

def rm (e : Engine) (path : List Char) (rec : Bool) : Option Engine :=
  rmF (e.curTree.length + 1) e path rec

def mv (e : Engine) (src dest : List Char) (now : Nat) : Option Engine :=
  match getEntry e src with
  | none => none
  | some srcEntry =>
    if srcEntry.type = EKind.file then
      let destNorm := normalizePath dest
      let parentPath := getParentPath destNorm
      match getEntry e parentPath with
      | none => none
      | some parent =>
        if parent.type ≠ EKind.directory then none
        else
          let newEntry : TreeEntry := {
            type := srcEntry.type
            parent := some parentPath
            name := getBasename destNorm
            metadata := {
              size := srcEntry.metadata.size
              mode := srcEntry.metadata.mode
              mtime := now
              ctime := srcEntry.metadata.ctime }
            fileDocId := srcEntry.fileDocId
            blobHash := optTruthy srcEntry.blobHash }
          some (deleteEntry (setEntry e destNorm newEntry) src)
    else none

def cpF (hashHex : List Nat → List Char) :
    Nat → Engine → List Char → List Char → Bool → Nat → Option Engine
  | 0, _, _, _, _, _ => none
  | fuel + 1, e, src, dest, rec, now =>
    match getEntry e src with
    | none => none
    | some srcEntry =>
      if srcEntry.type = EKind.file then
        match readFile e src with
        | none => none
        | some content => writeFile hashHex e dest (.bytes content) now
      else if rec then
        match mkdir e dest true now with
        | none => none
        | some e1 =>
          let srcNorm := normalizePath src
          let destNorm := normalizePath dest
          (childNames e1 srcNorm).foldl
            (fun acc childName =>
              match acc with
              | none => none
              | some e2 =>
                let childSrc := if srcNorm = ['/'] then '/' :: childName
                  else srcNorm ++ '/' :: childName
                let childDest := if destNorm = ['/'] then '/' :: childName
                  else destNorm ++ '/' :: childName
                cpF hashHex fuel e2 childSrc childDest rec now)
            (some e1)
      else none

def cp (hashHex : List Nat → List Char) (e : Engine) (src dest : List Char)
    (rec : Bool) (now : Nat) : Option Engine :=
  cpF hashHex (e.curTree.length + 1) e src dest rec now

def chmod (e : Engine) (path : List Char) (mode : Nat) : Option Engine :=
  let normalized := normalizePath path
  match getEntry e normalized with
  | none => none
  | some _ =>
    some (e.setTree (match alookup e.curTree normalized with
      | some en => ainsert e.curTree normalized
          { en with metadata := { en.metadata with mode := mode } }
      | none => e.curTree))

def utimes (e : Engine) (path : List Char) (_atime mtime : Nat) : Option Engine :=
  let normalized := normalizePath path
  match getEntry e normalized with
  | none => none
  | some _ =>
    some (e.setTree (match alookup e.curTree normalized with
      | some en => ainsert e.curTree normalized
          { en with metadata := { en.metadata with mtime := mtime } }
      | none => e.curTree))

/-! ## Version control observations -/

def getFileHeads (e : Engine) (path : List Char) : Option (List Nat) :=
  match getEntry e path with
  | none => some []
  | some en =>
    match en.fileDocId with
    | none => some []
    | some d =>
      match alookup e.store.fileDocs d with
      | none => none
      | some doc => some [doc.version]

/-! ## Engine lifecycle -/

def rootEntry (now : Nat) : TreeEntry :=
  { type := EKind.directory
    parent := none
    name := ['/']
    metadata := { size := 0, mode := 0o755, mtime := now, ctime := now }
    fileDocId := none
    blobHash := none }

/-- `AutomergeFsMultiDoc.create`: fresh root document whose tree maps `"/"`
to a directory. -/
def createEngine (st : Store) (now : Nat) : Engine :=
  let id := st.nextDocId
  { store := { st with
      rootTrees := ainsert st.rootTrees id (ainsert [] ['/'] (rootEntry now)),
      nextDocId := id + 1 },
    rootUrl := id,
    fileHandles := [] }

/-- `AutomergeFsMultiDoc.load`: `repo.find(rootDocUrl)` then `whenReady`;
fails when the backend does not know the document. -/
def loadEngine (st : Store) (url : Nat) : Option Engine :=
  match alookup st.rootTrees url with
  | none => none
  | some _ => some { store := st, rootUrl := url, fileHandles := [] }

def emptyStore : Store :=
  { rootTrees := [], fileDocs := [], blobs := [], nextDocId := 0 }

inductive FsOp
  | write (p : List Char) (c : FileContent) (now : Nat)
  | append (p : List Char) (c : List Nat) (now : Nat)
  | mkdirOp (p : List Char) (rec : Bool) (now : Nat)
  | rmOp (p : List Char) (rec : Bool)
  | unlinkOp (p : List Char)
  | mvOp (src dest : List Char) (now : Nat)
  | cpOp (src dest : List Char) (rec : Bool) (now : Nat)
  | chmodOp (p : List Char) (mode : Nat)
  | utimesOp (p : List Char) (atime mtime : Nat)

def runOp (hashHex : List Nat → List Char) (e : Engine) : FsOp → Option Engine
  | .write p c now => writeFile hashHex e p c now
  | .append p c now => appendFile hashHex e p c now
  | .mkdirOp p rec now => mkdir e p rec now
  | .rmOp p rec => rm e p rec
  | .unlinkOp p => unlink e p
  | .mvOp s d now => mv e s d now
  | .cpOp s d rec now => cp hashHex e s d rec now
  | .chmodOp p m => chmod e p m
  | .utimesOp p a m => utimes e p a m

def runOps (hashHex : List Nat → List Char) (e : Engine) : List FsOp → Option Engine
  | [] => some e
  | op :: ops =>
    match runOp hashHex e op with
    | none => none
    | some e1 => runOps hashHex e1 ops

/-! ## FileSystemBlobStore (`BlobStore.ts`)

The two-level on-disk layout is modelled as a map from bucket name to the
files inside that bucket directory.  `list` is `readdir` over buckets
concatenating bucket name and file name. -/

structure BStore where
  buckets : List (List Char × List (List Char × List Nat))
deriving DecidableEq

/-- `getPath`: bucket directory.  `hash.length < 2` buckets under `"00"`. -/
def bsBucket (h : List Char) : List Char :=
  if h.length < 2 then ['0', '0'] else h.take 2

/-- `getPath`: file name inside the bucket. -/
def bsFile (h : List Char) : List Char :=
  if h.length < 2 then h else h.drop 2

def BStore.get (st : BStore) (h : List Char) : Option (List Nat) :=
  match alookup st.buckets (bsBucket h) with
  | none => none
  | some files => alookup files (bsFile h)

/-- `set`: `mkdir` the bucket directory, then `Bun.write(getPath hash)`.
When the filename part is empty (a hash of length exactly 2, or an empty
hash), `path.join` collapses the target path to the bucket directory that
was just created, and the write fails with `EISDIR`.  The only surviving
side effect of the failure is the empty bucket directory, which `get`,
`has` and `list` cannot observe (`readdir` of an empty bucket contributes
nothing), so the failed call leaves the store unchanged. -/
def BStore.set (st : BStore) (h : List Char) (b : List Nat) : Option BStore :=
  if bsFile h = [] then none
  else
    let files := (alookup st.buckets (bsBucket h)).getD []
    some ⟨ainsert st.buckets (bsBucket h) (ainsert files (bsFile h) b)⟩

def BStore.has (st : BStore) (h : List Char) : Bool :=
  (BStore.get st h).isSome

def BStore.del (st : BStore) (h : List Char) : BStore :=
  match alookup st.buckets (bsBucket h) with
  | none => st
  | some files =>
    if (alookup files (bsFile h)).isSome then
      ⟨ainsert st.buckets (bsBucket h) (aerase files (bsFile h))⟩
    else st

def listJoin : List (List (List Char)) → List (List Char)
  | [] => []
  | x :: xs => x ++ listJoin xs

def BStore.list (st : BStore) : List (List Char) :=
  listJoin (st.buckets.map (fun bkt => bkt.2.map (fun f => bkt.1 ++ f.1)))

def emptyBStore : BStore := ⟨[]⟩

/-! ## Tree invariant (spec §3) as an executable predicate -/

def isDirEntry (o : Option TreeEntry) : Bool :=
  match o with
  | some en => en.type = EKind.directory
  | none => false

/-- Root exists as a directory, and every non-root entry has a parent entry
that is a directory. -/
def treeOkB (t : List (List Char × TreeEntry)) : Bool :=
  isDirEntry (alookup t ['/']) &&
    t.all (fun kv => kv.1 = ['/'] || isDirEntry (alookup t (getParentPath kv.1)))

def treeOkAfter (o : Option Engine) : Bool :=
  match o with
  | none => true
  | some e => treeOkB e.curTree

/-! ## Observation helpers -/

def isFileAt (e : Engine) (p : List Char) : Bool :=
  match getEntry e p with
  | some en => en.type = EKind.file
  | none => false

def isDirAt (e : Engine) (p : List Char) : Bool :=
  isDirEntry (getEntry e p)

def notDirAt (e : Engine) (p : List Char) : Bool :=
  !(isDirAt e p)

/-! ## Simp lemmas about the state primitives -/

@[simp] theorem curTree_setTree (e : Engine) (t : List (List Char × TreeEntry)) :
    (Engine.setTree e t).curTree = t := by
  unfold Engine.setTree Engine.curTree
  simp [alookup_ainsert]

@[simp] theorem fileDocs_setTree (e : Engine) (t : List (List Char × TreeEntry)) :
    (Engine.setTree e t).store.fileDocs = e.store.fileDocs := rfl

@[simp] theorem blobs_setTree (e : Engine) (t : List (List Char × TreeEntry)) :
    (Engine.setTree e t).store.blobs = e.store.blobs := rfl

@[simp] theorem rootUrl_setTree (e : Engine) (t : List (List Char × TreeEntry)) :
    (Engine.setTree e t).rootUrl = e.rootUrl := rfl

@[simp] theorem nextDocId_setTree (e : Engine) (t : List (List Char × TreeEntry)) :
    (Engine.setTree e t).store.nextDocId = e.store.nextDocId := rfl

@[simp] theorem curTree_setEntry (e : Engine) (p : List Char) (en : TreeEntry) :
    (setEntry e p en).curTree = ainsert e.curTree (normalizePath p) en := by
  unfold setEntry; simp

@[simp] theorem fileDocs_setEntry (e : Engine) (p : List Char) (en : TreeEntry) :
    (setEntry e p en).store.fileDocs = e.store.fileDocs := rfl

@[simp] theorem blobs_setEntry (e : Engine) (p : List Char) (en : TreeEntry) :
    (setEntry e p en).store.blobs = e.store.blobs := rfl

@[simp] theorem curTree_deleteEntry (e : Engine) (p : List Char) :
    (deleteEntry e p).curTree = aerase e.curTree (normalizePath p) := by
  unfold deleteEntry; simp

@[simp] theorem fileDocs_deleteEntry (e : Engine) (p : List Char) :
    (deleteEntry e p).store.fileDocs = e.store.fileDocs := rfl

@[simp] theorem blobs_deleteEntry (e : Engine) (p : List Char) :
    (deleteEntry e p).store.blobs = e.store.blobs := rfl

@[simp] theorem curTree_setBlob (e : Engine) (h : List Char) (b : List Nat) :
    (setBlob e h b).curTree = e.curTree := rfl

@[simp] theorem blobs_setBlob (e : Engine) (h : List Char) (b : List Nat) :
    (setBlob e h b).store.blobs = ainsert e.store.blobs h b := rfl

@[simp] theorem fileDocs_setBlob (e : Engine) (h : List Char) (b : List Nat) :
    (setBlob e h b).store.fileDocs = e.store.fileDocs := rfl

@[simp] theorem curTree_deleteBlob (e : Engine) (h : List Char) :
    (deleteBlob e h).curTree = e.curTree := rfl

@[simp] theorem blobs_deleteBlob (e : Engine) (h : List Char) :
    (deleteBlob e h).store.blobs = aerase e.store.blobs h := rfl

@[simp] theorem fileDocs_deleteBlob (e : Engine) (h : List Char) :
    (deleteBlob e h).store.fileDocs = e.store.fileDocs := rfl

@[simp] theorem curTree_addHandle (e : Engine) (d : Nat) :
    (addHandle e d).curTree = e.curTree := rfl

@[simp] theorem store_addHandle (e : Engine) (d : Nat) :
    (addHandle e d).store = e.store := rfl

@[simp] theorem curTree_evictHandle (e : Engine) (d : Nat) :
    (evictHandle e d).curTree = e.curTree := rfl

@[simp] theorem store_evictHandle (e : Engine) (d : Nat) :
    (evictHandle e d).store = e.store := rfl

@[simp] theorem curTree_updateDoc (e : Engine) (d : Nat) (text : List Nat) :
    (updateDoc e d text).curTree = e.curTree := by
  unfold updateDoc Engine.curTree
  split <;> rfl

@[simp] theorem blobs_updateDoc (e : Engine) (d : Nat) (text : List Nat) :
    (updateDoc e d text).store.blobs = e.store.blobs := by
  unfold updateDoc
  split <;> rfl

theorem fileDocs_updateDoc (e : Engine) (d : Nat) (text : List Nat) (doc : FileDoc)
    (h : alookup e.store.fileDocs d = some doc) :
    (updateDoc e d text).store.fileDocs =
      ainsert e.store.fileDocs d { content := text, version := doc.version + 1 } := by
  unfold updateDoc
  rw [h]

@[simp] theorem curTree_createFileDoc (e : Engine) (text : List Nat) :
    (createFileDoc e text).1.curTree = e.curTree := rfl

@[simp] theorem blobs_createFileDoc (e : Engine) (text : List Nat) :
    (createFileDoc e text).1.store.blobs = e.store.blobs := rfl

@[simp] theorem fileDocs_createFileDoc (e : Engine) (text : List Nat) :
    (createFileDoc e text).1.store.fileDocs =
      ainsert e.store.fileDocs e.store.nextDocId { content := text, version := 1 } := rfl

@[simp] theorem snd_createFileDoc (e : Engine) (text : List Nat) :
    (createFileDoc e text).2 = e.store.nextDocId := rfl

theorem getEntry_setEntry_norm (e : Engine) (p : List Char) (en : TreeEntry) :
    getEntry (setEntry e (normalizePath p) en) p = some en := by
  unfold getEntry
  rw [curTree_setEntry, normalizePath_idem, alookup_ainsert, if_pos rfl]

theorem optTruthy_some (h : List Char) (hne : h ≠ []) :
    optTruthy (some h) = some h := by
  unfold optTruthy
  cases h with
  | nil => cases hne rfl
  | cons a t => rfl

theorem readFile_setEntry_text (e2 : Engine) (p : List Char) (en : TreeEntry)
    (d : Nat) (doc : FileDoc)
    (htype : en.type = EKind.file) (hbh : en.blobHash = none)
    (hfd : en.fileDocId = some d)
    (hdoc : alookup e2.store.fileDocs d = some doc) :
    readFile (setEntry e2 (normalizePath p) en) p = some (utf8Encode doc.content) := by
  simp only [readFile, getEntry_setEntry_norm, htype, hbh, hfd]
  simp [optTruthy, hdoc]

theorem readFile_setEntry_blob (e2 : Engine) (p : List Char) (en : TreeEntry)
    (h : List Char) (b : List Nat)
    (htype : en.type = EKind.file) (hbh : en.blobHash = some h) (hne : h ≠ [])
    (hblob : alookup e2.store.blobs h = some b) :
    readFile (setEntry e2 (normalizePath p) en) p = some b := by
  simp only [readFile, getEntry_setEntry_norm, htype, hbh, optTruthy_some h hne]
  simp [hblob]
theorem writeFile_text_read (hashHex : List Nat → List Char) (e : Engine)
    (path : List Char) (content : FileContent) (now : Nat)
    (s' : Engine)
    (hbin : contentIsBinary content = false)
    (h : writeFile hashHex e path content now = some s') :
    readFile s' path = some (utf8Encode (contentText content)) := by
  rcases hpar : getEntry e (getParentPath (normalizePath path)) with _ | parent
  · simp only [writeFile, hpar] at h
    exact Option.noConfusion h
  · by_cases hdir : parent.type ≠ EKind.directory
    · simp only [writeFile, hpar, if_pos hdir] at h
      exact Option.noConfusion h
    · rcases hex : getEntry e (normalizePath path) with _ | ex
      · rcases hcd : createFileDoc e (contentText content) with ⟨e1, d⟩
        simp only [writeFile, hpar, if_neg hdir, hex, hbin, Bool.false_eq_true,
          if_false, hcd] at h
        injection h with h
        subst h
        refine readFile_setEntry_text _ path _ d
          { content := contentText content, version := 1 } rfl rfl rfl ?_
        have he1 : e1 = (createFileDoc e (contentText content)).1 := by rw [hcd]
        have hd : d = (createFileDoc e (contentText content)).2 := by rw [hcd]
        rw [he1, hd, fileDocs_createFileDoc, snd_createFileDoc,
          alookup_ainsert, if_pos rfl]
      · rcases hfd : ex.fileDocId with _ | d
        · rcases hcd : createFileDoc e (contentText content) with ⟨e1, d⟩
          rcases hbh : optTruthy ex.blobHash with _ | bh <;>
          · simp only [writeFile, hpar, if_neg hdir, hex, hfd, hbin,
              Bool.false_eq_true, if_false, hcd, hbh] at h
            injection h with h
            subst h
            refine readFile_setEntry_text _ path _ d
              { content := contentText content, version := 1 } rfl rfl rfl ?_
            have he1 : e1 = (createFileDoc e (contentText content)).1 := by rw [hcd]
            have hd : d = (createFileDoc e (contentText content)).2 := by rw [hcd]
            simp [he1, hd, alookup_ainsert]
        · rcases hdoc : alookup e.store.fileDocs d with _ | doc0
          · simp only [writeFile, hpar, if_neg hdir, hex, hfd, hdoc, hbin,
              Bool.false_eq_true, if_false] at h
            exact Option.noConfusion h
          · rcases hbh : optTruthy ex.blobHash with _ | bh <;>
            · simp only [writeFile, hpar, if_neg hdir, hex, hfd, hdoc, hbin,
                Bool.false_eq_true, if_false, hbh] at h
              injection h with h
              subst h
              refine readFile_setEntry_text _ path _ d
                { content := contentText content, version := doc0.version + 1 }
                rfl rfl rfl ?_
              have hupd := fileDocs_updateDoc (addHandle e d) d
                (contentText content) doc0 (by rw [store_addHandle]; exact hdoc)
              try simp only [fileDocs_deleteBlob]
              rw [hupd, alookup_ainsert, if_pos rfl]

theorem writeFile_binary_read (hashHex : List Nat → List Char) (e : Engine)
    (path : List Char) (content : FileContent) (now : Nat) (s' : Engine)
    (hbin : contentIsBinary content = true)
    (hh : hashHex (contentBytes content) ≠ [])
    (h : writeFile hashHex e path content now = some s') :
    readFile s' path = some (contentBytes content) := by
  rcases hpar : getEntry e (getParentPath (normalizePath path)) with _ | parent
  · simp only [writeFile, hpar] at h
    exact Option.noConfusion h
  · by_cases hdir : parent.type ≠ EKind.directory
    · simp only [writeFile, hpar, if_pos hdir] at h
      exact Option.noConfusion h
    · rcases hex : getEntry e (normalizePath path) with _ | ex
      · simp only [writeFile, hpar, if_neg hdir, hex, hbin, eq_self_iff_true,
          if_true] at h
        injection h with h
        subst h
        refine readFile_setEntry_blob _ path _ (hashHex (contentBytes content))
          (contentBytes content) rfl rfl hh ?_
        rw [blobs_setBlob, alookup_ainsert, if_pos rfl]
      · rcases hfd : ex.fileDocId with _ | dd
        · simp only [writeFile, hpar, if_neg hdir, hex, hfd, hbin,
            eq_self_iff_true, if_true] at h
          injection h with h
          subst h
          refine readFile_setEntry_blob _ path _ (hashHex (contentBytes content))
            (contentBytes content) rfl rfl hh ?_
          rw [blobs_setBlob, alookup_ainsert, if_pos rfl]
        · simp only [writeFile, hpar, if_neg hdir, hex, hfd, hbin,
            eq_self_iff_true, if_true] at h
          injection h with h
          subst h
          refine readFile_setEntry_blob _ path _ (hashHex (contentBytes content))
            (contentBytes content) rfl rfl hh ?_
          rw [store_evictHandle, blobs_setBlob, alookup_ainsert, if_pos rfl]

/-- C1 counterexample: the byte round-trip fails for BOM-prefixed decodable
bytes.  `writeFile(p, [0xEF, 0xBB, 0xBF, 0x68])` passes the `isBinary`
check and takes the text route, but `new TextDecoder().decode` strips the
leading byte-order mark, so the stored text is `"h"` and `readFile`
returns `[0x68]`, not the original bytes. -/
theorem claim1_write_read_counterexample :
    isBinary [239, 187, 191, 104] = false ∧
    (writeFile (fun _ => ['h']) (createEngine emptyStore 0) ("/a.txt".toList)
        (.bytes [239, 187, 191, 104]) 1).bind
      (fun s => readFile s ("/a.txt".toList)) = some [104] ∧
    some ([104] : List Nat) ≠ some ([239, 187, 191, 104] : List Nat) :=
  ⟨by decide, by decide, by decide⟩

/-- C1 (amended).  Write/read round-trip: immediately after a successful
`writeFile(p, c)` with a string `c`, `readFile(p)` returns the UTF-8
encoding of `c`.  Immediately after a successful `writeFile(p, b)` with
bytes `b`, `readFile(p)` returns exactly `b` when `b` is non-decodable
(blob route) or decodable without a leading UTF-8 byte-order mark; a
BOM-prefixed decodable sequence is stored BOM-stripped.  (`hashHex` models
`createBlobHash`, whose SHA-256 hex digests are nonempty.) -/
theorem claim1_write_read_amended (hashHex : List Nat → List Char)
    (e : Engine) (p : List Char) (c b bb : List Nat) (now : Nat)
    (hs : (writeFile hashHex e p (.str c) now).isSome = true)
    (hb : (writeFile hashHex e p (.bytes b) now).isSome = true)
    (hwbb : (writeFile hashHex e p (.bytes bb) now).isSome = true)
    (hdec : isBinary b = false)
    (hnb : stripBOMBytes b = b)
    (hbin : isBinary bb = true)
    (hh : hashHex bb ≠ []) :
    (writeFile hashHex e p (.str c) now).bind (fun s => readFile s p) =
      some (utf8Encode c) ∧
    (writeFile hashHex e p (.bytes b) now).bind (fun s => readFile s p) =
      some b ∧
    (writeFile hashHex e p (.bytes bb) now).bind (fun s => readFile s p) =
      some bb := by
  refine ⟨?_, ?_, ?_⟩
  · rcases hw : writeFile hashHex e p (.str c) now with _ | s'
    · rw [hw] at hs; cases hs
    · have := writeFile_text_read hashHex e p (.str c) now s' rfl hw
      simpa using this
  · rcases hw : writeFile hashHex e p (.bytes b) now with _ | s'
    · rw [hw] at hb; cases hb
    · -- decodable BOM-free bytes: text route, re-encoded
      have hread := writeFile_text_read hashHex e p (.bytes b) now s'
        (by simpa [contentIsBinary] using hdec) hw
      have hsome : ∃ u, utf8DecodeStrict b = some u := by
        unfold isBinary at hdec
        rcases hd : utf8DecodeStrict b with _ | u
        · rw [hd] at hdec; cases hdec
        · exact ⟨u, rfl⟩
      obtain ⟨u, hu⟩ := hsome
      have hlossy : utf8DecodeLossy b = u := utf8DecodeLossy_of_strict b u hnb hu
      have henc : utf8Encode u = b := utf8DecodeStrict_encode b u hu
      simp only [contentText, hlossy, henc] at hread
      simpa using hread
  · rcases hw : writeFile hashHex e p (.bytes bb) now with _ | s'
    · rw [hw] at hwbb; cases hwbb
    · have hread := writeFile_binary_read hashHex e p (.bytes bb) now s'
        (by simpa [contentIsBinary] using hbin) (by simpa [contentBytes] using hh)
        hw
      simpa [contentBytes] using hread

/-- C1 witness: a concrete engine, path, string, decodable BOM-free bytes
and binary bytes. -/
theorem claim1_write_read_witness :
    ((writeFile (fun _ => ['h']) (createEngine emptyStore 0) ("/a.txt".toList)
        (.str [104, 105, 8364]) 1).isSome = true) ∧
    ((writeFile (fun _ => ['h']) (createEngine emptyStore 0) ("/a.txt".toList)
        (.bytes [104, 105]) 1).isSome = true) ∧
    ((writeFile (fun _ => ['h']) (createEngine emptyStore 0) ("/a.txt".toList)
        (.bytes [0, 255]) 1).isSome = true) ∧
    (isBinary [104, 105] = false) ∧
    (stripBOMBytes [104, 105] = [104, 105]) ∧
    (isBinary [0, 255] = true) ∧
    ((fun _ => (['h'] : List Char)) [0, 255] ≠ []) ∧
    ((writeFile (fun _ => ['h']) (createEngine emptyStore 0) ("/a.txt".toList)
        (.str [104, 105, 8364]) 1).bind
      (fun s => readFile s ("/a.txt".toList)) =
        some (utf8Encode [104, 105, 8364]) ∧
     (writeFile (fun _ => ['h']) (createEngine emptyStore 0) ("/a.txt".toList)
        (.bytes [104, 105]) 1).bind
      (fun s => readFile s ("/a.txt".toList)) = some [104, 105] ∧
     (writeFile (fun _ => ['h']) (createEngine emptyStore 0) ("/a.txt".toList)
        (.bytes [0, 255]) 1).bind
      (fun s => readFile s ("/a.txt".toList)) = some [0, 255]) :=
  ⟨by decide, by decide, by decide, by decide, by decide, by decide, by decide,
    claim1_write_read_amended (fun _ => ['h']) (createEngine emptyStore 0)
      ("/a.txt".toList) [104, 105, 8364] [104, 105] [0, 255] 1
      (by decide) (by decide) (by decide) (by decide) (by decide) (by decide)
      (by decide)⟩
/-- C9 counterexample: the engine's normalization does not produce a single
leading `/` for every accepted input: `normalize("//")` is the empty string,
and `writeFile("//", …)` succeeds and stores the un-normalized key `""` in
the tree map. -/
theorem claim9_normalization_counterexample :
    normalizePath ("//".toList) = [] ∧
    headSlash (normalizePath ("//".toList)) = false ∧
    ((writeFile (fun _ => ['h']) (createEngine emptyStore 0) ("//".toList)
        (.str [104]) 1).bind
      (fun s => alookup s.curTree [])).isSome = true :=
  ⟨by decide, by decide, by decide⟩

/-- C9 (amended).  For every input path beginning with `/` and containing a
character other than `/`, normalization produces a path with a leading `/`,
no `/` runs and no trailing `/` (so no empty segments); `"/a//b/c/"` and
`"/a/b/c"` normalize identically and denote the same tree entry.  Inputs
without such shape (e.g. `"//"` or `"a/b"`) are not given a leading slash,
and such keys can be stored in the tree. -/
theorem claim9_normalization_amended (s : List Char) (e : Engine)
    (h1 : headSlash s = true)
    (h2 : s.any (fun c => ¬ c = '/') = true) :
    headSlash (normalizePath s) = true ∧
    noDoubleSlash (normalizePath s) = true ∧
    endsSlash (normalizePath s) = false ∧
    normalizePath ("/a//b/c/".toList) = ("/a/b/c".toList) ∧
    getEntry e ("/a//b/c/".toList) = getEntry e ("/a/b/c".toList) := by
  obtain ⟨g1, g2, g3⟩ := normalizePath_shape s h1 h2
  exact ⟨g1, g2, g3, by decide,
    congrArg (alookup e.curTree) (by decide :
      normalizePath ("/a//b/c/".toList) = normalizePath ("/a/b/c".toList))⟩

/-- C9 witness: a concrete slash-headed input and a concrete engine. -/
theorem claim9_normalization_witness :
    (headSlash ("/x//y".toList) = true) ∧
    (("/x//y".toList).any (fun c => ¬ c = '/') = true) ∧
    (headSlash (normalizePath ("/x//y".toList)) = true ∧
     noDoubleSlash (normalizePath ("/x//y".toList)) = true ∧
     endsSlash (normalizePath ("/x//y".toList)) = false ∧
     normalizePath ("/a//b/c/".toList) = ("/a/b/c".toList) ∧
     getEntry (createEngine emptyStore 0) ("/a//b/c/".toList) =
       getEntry (createEngine emptyStore 0) ("/a/b/c".toList)) :=
  ⟨by decide, by decide,
    claim9_normalization_amended ("/x//y".toList) (createEngine emptyStore 0)
      (by decide) (by decide)⟩

theorem bsFile_ne_nil (h : List Char) (hne : h ≠ []) (hlen : h.length ≠ 2) :
    bsFile h ≠ [] := by
  unfold bsFile
  split_ifs with hlt
  · exact hne
  · intro hd
    have hdl : (h.drop 2).length = 0 := by rw [hd]; rfl
    rw [List.length_drop] at hdl
    omega

theorem BStore.set_eq (st : BStore) (h : List Char) (b : List Nat)
    (hff : bsFile h ≠ []) :
    BStore.set st h b = some ⟨ainsert st.buckets (bsBucket h)
      (ainsert ((alookup st.buckets (bsBucket h)).getD []) (bsFile h) b)⟩ := by
  unfold BStore.set
  rw [if_neg hff]

theorem BStore.list_mem_set (st : BStore) (h : List Char) (b : List Nat)
    (st2 : BStore) (hset : BStore.set st h b = some st2) :
    (bsBucket h ++ bsFile h) ∈ BStore.list st2 := by
  unfold BStore.set at hset
  split_ifs at hset with hff
  injection hset with hset
  rw [← hset]
  show (bsBucket h ++ bsFile h) ∈
    ((bsFile h, b) :: aerase ((alookup st.buckets (bsBucket h)).getD [])
        (bsFile h)).map (fun f => bsBucket h ++ f.1) ++
      listJoin ((aerase st.buckets (bsBucket h)).map
        (fun bkt => bkt.2.map (fun f => bkt.1 ++ f.1)))
  exact List.mem_append_left _ (List.mem_cons_self _ _)

/-- C8 counterexample: after `set("a", …)` (a hash shorter than 2
characters), `list()` contains `"00a"`, not `"a"`; and `set("ab", …)` (a
hash of length exactly 2) computes the empty filename, so the write path
collapses to the bucket directory itself and `set` fails with `EISDIR`
instead of storing the blob. -/
theorem claim8_blobstore_counterexample :
    BStore.set emptyBStore ['a'] [1] =
      some ⟨[(['0', '0'], [(['a'], [1])])]⟩ ∧
    BStore.list ⟨[(['0', '0'], [(['a'], [1])])]⟩ = [['0', '0', 'a']] ∧
    ['a'] ∉ BStore.list ⟨[(['0', '0'], [(['a'], [1])])]⟩ ∧
    BStore.set emptyBStore ['a', 'b'] [1] = none :=
  ⟨by decide, by decide, by decide, by decide⟩

/-- C8 (amended).  For every hash `h` that is nonempty and not of length
exactly 2, and bytes `b`: `set(h, b)` succeeds; afterwards `get(h)`
returns `b` and `has(h)` is true; `list()` contains `h` when `h` has at
least 2 characters, while a shorter hash is bucketed under `"00"` and
listed as `"00" ++ h`; `get(h)` after `delete(h)` reports absence, and
`delete` of an absent hash is a no-op.  For a hash of length exactly 2 the
two-level layout computes an empty filename, the write path collapses to
the bucket directory, and `set` fails with `EISDIR`. -/
theorem claim8_blobstore_contract (st : BStore) (h h2 : List Char)
    (b : List Nat) (hne : h ≠ []) (hlen : h.length ≠ 2)
    (hlen2 : h2.length = 2) :
    ∃ st2, BStore.set st h b = some st2 ∧
      BStore.get st2 h = some b ∧
      BStore.has st2 h = true ∧
      (2 ≤ h.length → h ∈ BStore.list st2) ∧
      (h.length < 2 → ('0' :: '0' :: h) ∈ BStore.list st2) ∧
      BStore.get (BStore.del st h) h = none ∧
      (BStore.has st h = false → BStore.del st h = st) ∧
      BStore.set st h2 b = none := by
  have hff := bsFile_ne_nil h hne hlen
  have hset := BStore.set_eq st h b hff
  refine ⟨_, hset, ?_, ?_, ?_, ?_, ?_, ?_, ?_⟩
  · unfold BStore.get
    simp [alookup_ainsert]
  · unfold BStore.has BStore.get
    simp [alookup_ainsert]
  · intro hlge
    have hmem := BStore.list_mem_set st h b _ hset
    have hkey : bsBucket h ++ bsFile h = h := by
      have hb2 : bsBucket h = h.take 2 := by
        unfold bsBucket
        rw [if_neg (by omega)]
      have hf2 : bsFile h = h.drop 2 := by
        unfold bsFile
        rw [if_neg (by omega)]
      rw [hb2, hf2, List.take_append_drop]
    rw [hkey] at hmem
    exact hmem
  · intro hllt
    have hmem := BStore.list_mem_set st h b _ hset
    have hkey : bsBucket h ++ bsFile h = '0' :: '0' :: h := by
      have hb2 : bsBucket h = ['0', '0'] := by
        unfold bsBucket
        rw [if_pos hllt]
      have hf2 : bsFile h = h := by
        unfold bsFile
        rw [if_pos hllt]
      rw [hb2, hf2]
      rfl
    rw [hkey] at hmem
    exact hmem
  · rcases hbk : alookup st.buckets (bsBucket h) with _ | files
    · have hdel : BStore.del st h = st := by
        unfold BStore.del
        rw [hbk]
      rw [hdel]
      unfold BStore.get
      rw [hbk]
    · by_cases hfa : (alookup files (bsFile h)).isSome = true
      · have hdel : BStore.del st h =
            ⟨ainsert st.buckets (bsBucket h) (aerase files (bsFile h))⟩ := by
          unfold BStore.del
          rw [hbk]
          exact if_pos hfa
        rw [hdel]
        unfold BStore.get
        simp [alookup_ainsert, alookup_aerase]
      · have hdel : BStore.del st h = st := by
          unfold BStore.del
          rw [hbk]
          exact if_neg hfa
        rw [hdel]
        unfold BStore.get
        rw [hbk]
        have hx : alookup files (bsFile h) = none := by
          rcases hy : alookup files (bsFile h) with _ | v
          · rfl
          · rw [hy] at hfa
            simp at hfa
        exact hx
  · intro habs
    unfold BStore.has at habs
    rcases hbk : alookup st.buckets (bsBucket h) with _ | files
    · unfold BStore.del
      rw [hbk]
    · have hfa : (alookup files (bsFile h)).isSome = false := by
        unfold BStore.get at habs
        rw [hbk] at habs
        exact habs
      unfold BStore.del
      rw [hbk]
      exact if_neg (by rw [hfa]; exact Bool.false_ne_true)
  · have hf2 : bsFile h2 = [] := by
      unfold bsFile
      rw [if_neg (by omega)]
      have hdl : (h2.drop 2).length = 0 := by
        rw [List.length_drop, hlen2]
      exact List.eq_nil_of_length_eq_zero hdl
    unfold BStore.set
    rw [if_pos hf2]

/-- C8 witness: a concrete hash of length 3 and the failing hash of
length 2. -/
theorem claim8_blobstore_witness :
    ((['a', 'b', 'c'] : List Char) ≠ []) ∧
    ((['a', 'b', 'c'] : List Char).length ≠ 2) ∧
    ((['d', 'e'] : List Char).length = 2) ∧
    (∃ st2, BStore.set emptyBStore ['a', 'b', 'c'] [1, 2] = some st2 ∧
      BStore.get st2 ['a', 'b', 'c'] = some [1, 2] ∧
      BStore.has st2 ['a', 'b', 'c'] = true ∧
      (2 ≤ (['a', 'b', 'c'] : List Char).length →
        ['a', 'b', 'c'] ∈ BStore.list st2) ∧
      ((['a', 'b', 'c'] : List Char).length < 2 →
        ('0' :: '0' :: ['a', 'b', 'c']) ∈ BStore.list st2) ∧
      BStore.get (BStore.del emptyBStore ['a', 'b', 'c']) ['a', 'b', 'c'] = none ∧
      (BStore.has emptyBStore ['a', 'b', 'c'] = false →
        BStore.del emptyBStore ['a', 'b', 'c'] = emptyBStore) ∧
      BStore.set emptyBStore ['d', 'e'] [1, 2] = none) :=
  ⟨by decide, by decide, by decide,
    claim8_blobstore_contract emptyBStore ['a', 'b', 'c'] ['d', 'e'] [1, 2]
      (by decide) (by decide) (by decide)⟩

theorem getEntry_norm (e : Engine) (p : List Char) :
    getEntry e (normalizePath p) = getEntry e p := by
  unfold getEntry
  rw [normalizePath_idem]

theorem deleteEntry_norm (e : Engine) (p : List Char) :
    deleteEntry e (normalizePath p) = deleteEntry e p := by
  unfold deleteEntry
  rw [normalizePath_idem]
theorem writeFile_success_entry (hashHex : List Nat → List Char) (e : Engine)
    (path : List Char) (content : FileContent) (now : Nat) (s' : Engine)
    (h : writeFile hashHex e path content now = some s') :
    ∃ en, getEntry s' path = some en ∧
      en.type = EKind.file ∧
      (contentIsBinary content = true →
        en.blobHash = some (hashHex (contentBytes content)) ∧
        en.fileDocId = none ∧
        alookup s'.store.blobs (hashHex (contentBytes content)) =
          some (contentBytes content)) ∧
      (contentIsBinary content = false →
        en.blobHash = none ∧
        ∃ d doc, en.fileDocId = some d ∧
          alookup s'.store.fileDocs d = some doc ∧
          doc.content = contentText content ∧
          (∀ hsh bb, alookup s'.store.blobs hsh = some bb →
            alookup e.store.blobs hsh = some bb)) := by
  rcases hpar : getEntry e (getParentPath (normalizePath path)) with _ | parent
  · simp only [writeFile, hpar] at h
    exact Option.noConfusion h
  · by_cases hdir : parent.type ≠ EKind.directory
    · simp only [writeFile, hpar, if_pos hdir] at h
      exact Option.noConfusion h
    · rcases hbc : contentIsBinary content with _ | _
      · -- text route
        rcases hex : getEntry e (normalizePath path) with _ | ex
        · rcases hcd : createFileDoc e (contentText content) with ⟨e1, d⟩
          simp only [writeFile, hpar, if_neg hdir, hex, hbc, Bool.false_eq_true,
            if_false, hcd] at h
          injection h with h
          subst h
          refine ⟨_, getEntry_setEntry_norm _ path _, rfl, ?_, ?_⟩
          · intro hc
            exact Bool.noConfusion hc
          · intro _
            refine ⟨rfl, d, { content := contentText content, version := 1 },
              rfl, ?_, rfl, ?_⟩
            · have he1 : e1 = (createFileDoc e (contentText content)).1 := by
                rw [hcd]
              have hd : d = (createFileDoc e (contentText content)).2 := by
                rw [hcd]
              rw [fileDocs_setEntry, he1, hd, fileDocs_createFileDoc,
                snd_createFileDoc, alookup_ainsert, if_pos rfl]
            · intro hsh bb hbb
              have he1 : e1 = (createFileDoc e (contentText content)).1 := by
                rw [hcd]
              rw [blobs_setEntry, he1, blobs_createFileDoc] at hbb
              exact hbb
        · rcases hfd : ex.fileDocId with _ | d
          · rcases hcd : createFileDoc e (contentText content) with ⟨e1, d⟩
            have he1 : e1 = (createFileDoc e (contentText content)).1 := by
              rw [hcd]
            have hd : d = (createFileDoc e (contentText content)).2 := by
              rw [hcd]
            rcases hbh : optTruthy ex.blobHash with _ | bh <;>
            · simp only [writeFile, hpar, if_neg hdir, hex, hfd, hbc,
                Bool.false_eq_true, if_false, hcd, hbh] at h
              injection h with h
              subst h
              refine ⟨_, getEntry_setEntry_norm _ path _, rfl, ?_, ?_⟩
              · intro hc
                exact Bool.noConfusion hc
              · intro _
                refine ⟨rfl, d, { content := contentText content, version := 1 },
                  rfl, ?_, rfl, ?_⟩
                · try simp only [fileDocs_setEntry, fileDocs_deleteBlob]
                  rw [he1, hd, fileDocs_createFileDoc, snd_createFileDoc,
                    alookup_ainsert, if_pos rfl]
                · intro hsh bb hbb
                  try simp only [blobs_setEntry, blobs_deleteBlob] at hbb
                  rw [he1, blobs_createFileDoc] at hbb
                  first
                    | exact hbb
                    | (rw [alookup_aerase] at hbb
                       split at hbb
                       · exact Option.noConfusion hbb
                       · exact hbb)
          · rcases hdoc : alookup e.store.fileDocs d with _ | doc0
            · simp only [writeFile, hpar, if_neg hdir, hex, hfd, hdoc, hbc,
                Bool.false_eq_true, if_false] at h
              exact Option.noConfusion h
            · have hupd := fileDocs_updateDoc (addHandle e d) d
                (contentText content) doc0 (by rw [store_addHandle]; exact hdoc)
              rcases hbh : optTruthy ex.blobHash with _ | bh <;>
              · simp only [writeFile, hpar, if_neg hdir, hex, hfd, hdoc, hbc,
                  Bool.false_eq_true, if_false, hbh] at h
                injection h with h
                subst h
                refine ⟨_, getEntry_setEntry_norm _ path _, rfl, ?_, ?_⟩
                · intro hc
                  exact Bool.noConfusion hc
                · intro _
                  refine ⟨rfl, d,
                    { content := contentText content, version := doc0.version + 1 },
                    rfl, ?_, rfl, ?_⟩
                  · try simp only [fileDocs_setEntry, fileDocs_deleteBlob]
                    rw [hupd, alookup_ainsert, if_pos rfl]
                  · intro hsh bb hbb
                    try simp only [blobs_setEntry, blobs_deleteBlob] at hbb
                    rw [blobs_updateDoc, store_addHandle] at hbb
                    first
                      | exact hbb
                      | (rw [alookup_aerase] at hbb
                         split at hbb
                         · exact Option.noConfusion hbb
                         · exact hbb)
      · -- binary route
        have hset : ∀ (e2 : Engine),
            e2.store.blobs = (setBlob e (hashHex (contentBytes content))
              (contentBytes content)).store.blobs →
            alookup e2.store.blobs (hashHex (contentBytes content)) =
              some (contentBytes content) := by
          intro e2 he2
          rw [he2, blobs_setBlob, alookup_ainsert, if_pos rfl]
        rcases hex : getEntry e (normalizePath path) with _ | ex
        · simp only [writeFile, hpar, if_neg hdir, hex, hbc, eq_self_iff_true,
            if_true] at h
          injection h with h
          subst h
          refine ⟨_, getEntry_setEntry_norm _ path _, rfl, ?_, ?_⟩
          · intro _
            exact ⟨rfl, rfl, hset _ rfl⟩
          · intro hc
            exact Bool.noConfusion hc
        · rcases hfd : ex.fileDocId with _ | dd <;>
          · simp only [writeFile, hpar, if_neg hdir, hex, hfd, hbc,
              eq_self_iff_true, if_true] at h
            injection h with h
            subst h
            refine ⟨_, getEntry_setEntry_norm _ path _, rfl, ?_, ?_⟩
            · intro _
              exact ⟨rfl, rfl, hset _ rfl⟩
            · intro hc
              exact Bool.noConfusion hc
/-- C5 counterexample: from a fresh filesystem with a directory `/d`,
`rm("/d")` without the recursive flag does not fail — it succeeds and the
directory entry is gone afterwards. -/
theorem claim5_rm_directory_counterexample :
    ((mkdir (createEngine emptyStore 0) ("/d".toList) false 1).bind
      (fun s => rm s ("/d".toList) false)).isSome = true ∧
    ((mkdir (createEngine emptyStore 0) ("/d".toList) false 1).bind
      (fun s => (rm s ("/d".toList) false).bind
        (fun s2 => getEntry s2 ("/d".toList)))) = none :=
  ⟨by decide, by decide⟩

/-- C5 (amended).  For every path whose tree entry is a directory,
`rm(p)` without the recursive flag SUCCEEDS, and the resulting state is
exactly the original with the directory's own tree entry deleted —
descendant entries, file documents and blobs are untouched. -/
theorem claim5_rm_directory_amended (e : Engine) (p : List Char)
    (hdir : isDirAt e p = true) :
    rm e p false = some (deleteEntry e p) := by
  rcases hg : getEntry e p with _ | en
  · unfold isDirAt isDirEntry at hdir
    rw [hg] at hdir
    cases hdir
  · have htype : en.type = EKind.directory := by
      unfold isDirAt isDirEntry at hdir
      rw [hg] at hdir
      simpa using hdir
    have hg2 : getEntry e (normalizePath p) = some en := by
      rw [getEntry_norm]; exact hg
    show rmF (e.curTree.length + 1) e p false = some (deleteEntry e p)
    simp only [rmF, hg2, htype]
    simp only [Bool.false_eq_true, and_false, if_false]
    simp only [show (EKind.directory = EKind.file) = False from by
      simp, if_false]
    rw [deleteEntry_norm]

/-- C5 witness: the concrete engine holding directory `/d`. -/
theorem claim5_rm_directory_witness :
    (isDirAt ((mkdir (createEngine emptyStore 0) ("/d".toList) false 1).getD
        (createEngine emptyStore 0)) ("/d".toList) = true) ∧
    (rm ((mkdir (createEngine emptyStore 0) ("/d".toList) false 1).getD
        (createEngine emptyStore 0)) ("/d".toList) false =
      some (deleteEntry ((mkdir (createEngine emptyStore 0) ("/d".toList) false
        1).getD (createEngine emptyStore 0)) ("/d".toList))) :=
  ⟨by decide,
    claim5_rm_directory_amended
      ((mkdir (createEngine emptyStore 0) ("/d".toList) false 1).getD
        (createEngine emptyStore 0)) ("/d".toList) (by decide)⟩
theorem writeFile_succeeds_nofd (hashHex : List Nat → List Char) (e : Engine)
    (path : List Char) (content : FileContent) (now : Nat)
    (hpar : isDirAt e (getParentPath (normalizePath path)) = true)
    (hnofd : (getEntry e path).bind (fun en => en.fileDocId) = none) :
    (writeFile hashHex e path content now).isSome = true := by
  rcases hpp : getEntry e (getParentPath (normalizePath path)) with _ | parent
  · unfold isDirAt isDirEntry at hpar
    rw [hpp] at hpar
    cases hpar
  · have hpt : parent.type = EKind.directory := by
      unfold isDirAt isDirEntry at hpar
      rw [hpp] at hpar
      simpa using hpar
    have hdir : ¬ parent.type ≠ EKind.directory := by simp [hpt]
    rcases hbc : contentIsBinary content with _ | _
    · rcases hex : getEntry e (normalizePath path) with _ | ex
      · rcases hcd : createFileDoc e (contentText content) with ⟨e1, d⟩
        simp only [writeFile, hpp, if_neg hdir, hex, hbc, Bool.false_eq_true,
          if_false, hcd]
        rfl
      · have hfd : ex.fileDocId = none := by
          have hex2 := hex
          rw [getEntry_norm] at hex2
          rw [hex2] at hnofd
          exact hnofd
        rcases hcd : createFileDoc e (contentText content) with ⟨e1, d⟩
        rcases hbh : optTruthy ex.blobHash with _ | bh <;>
        · simp only [writeFile, hpp, if_neg hdir, hex, hfd, hbc,
            Bool.false_eq_true, if_false, hcd, hbh]
          rfl
    · rcases hex : getEntry e (normalizePath path) with _ | ex
      · simp only [writeFile, hpp, if_neg hdir, hex, hbc, eq_self_iff_true,
          if_true]
        rfl
      · have hfd : ex.fileDocId = none := by
          have hex2 := hex
          rw [getEntry_norm] at hex2
          rw [hex2] at hnofd
          exact hnofd
        simp only [writeFile, hpp, if_neg hdir, hex, hfd, hbc,
          eq_self_iff_true, if_true]
        rfl

/-- C6 counterexample: `writeFile` over an existing directory entry
succeeds and turns it into a file entry (the claim says it must fail and
the entry must remain a directory). -/
theorem claim6_kind_transition_counterexample :
    (((mkdir (createEngine emptyStore 0) ("/d".toList) false 1).bind
      (fun s => writeFile (fun _ => ['h']) s ("/d".toList) (.str [120]) 2)).bind
      (fun s2 => getEntry s2 ("/d".toList))).map (fun en => en.type) =
      some EKind.file := by decide

/-- C6 (amended).  `mkdir` on a path holding a file entry fails
(AlreadyExists) without mutating anything, as claimed; but `writeFile` on
a path holding a directory entry (with an existing parent directory)
SUCCEEDS and replaces the directory entry with a file entry — no
intermediate `rm` is required for the directory-to-file transition. -/
theorem claim6_kind_transition_amended (hashHex : List Nat → List Char)
    (e : Engine) (p r : List Char) (c : FileContent) (rec : Bool) (now : Nat)
    (hfile : isFileAt e p = true)
    (hdir : isDirAt e r = true)
    (hpar : isDirAt e (getParentPath (normalizePath r)) = true)
    (hnofd : (getEntry e r).bind (fun en => en.fileDocId) = none) :
    mkdir e p rec now = none ∧
    (writeFile hashHex e r c now).isSome = true ∧
    ((writeFile hashHex e r c now).bind (fun s => getEntry s r)).map
      (fun en => en.type) = some EKind.file := by
  refine ⟨?_, writeFile_succeeds_nofd hashHex e r c now hpar hnofd, ?_⟩
  · rcases hg : getEntry e p with _ | en
    · unfold isFileAt at hfile
      rw [hg] at hfile
      cases hfile
    · have htype : en.type = EKind.file := by
        unfold isFileAt at hfile
        rw [hg] at hfile
        simpa using hfile
      have hg2 : getEntry e (normalizePath p) = some en := by
        rw [getEntry_norm]; exact hg
      show mkdirF ((pathParts (normalizePath p)).length + 2) e p rec now = none
      simp only [mkdirF, hg2, htype]
      simp
  · rcases hw : writeFile hashHex e r c now with _ | s'
    · have hsucc := writeFile_succeeds_nofd hashHex e r c now hpar hnofd
      rw [hw] at hsucc
      cases hsucc
    · obtain ⟨en, hgen, htype, _, _⟩ :=
        writeFile_success_entry hashHex e r c now s' hw
      simp [hgen, htype]

/-- A small populated engine: a directory `/d` and a text file `/f`. -/
def sampleEngine : Engine :=
  let e0 := createEngine emptyStore 0
  let e1 := (mkdir e0 ("/d".toList) false 1).getD e0
  (writeFile (fun _ => ['h']) e1 ("/f".toList) (.str [104]) 2).getD e1

/-- C6 witness: the populated engine, its file `/f` and directory `/d`. -/
theorem claim6_kind_transition_witness :
    (isFileAt sampleEngine ("/f".toList) = true) ∧
    (isDirAt sampleEngine ("/d".toList) = true) ∧
    (isDirAt sampleEngine (getParentPath (normalizePath ("/d".toList))) = true) ∧
    ((getEntry sampleEngine ("/d".toList)).bind (fun en => en.fileDocId) = none) ∧
    (mkdir sampleEngine ("/f".toList) false 3 = none ∧
     (writeFile (fun _ => ['h']) sampleEngine ("/d".toList) (.str [120])
        3).isSome = true ∧
     ((writeFile (fun _ => ['h']) sampleEngine ("/d".toList) (.str [120]) 3).bind
        (fun s => getEntry s ("/d".toList))).map (fun en => en.type) =
          some EKind.file) :=
  ⟨by decide, by decide, by decide, by decide,
    claim6_kind_transition_amended (fun _ => ['h']) sampleEngine ("/f".toList)
      ("/d".toList) (.str [120]) false 3 (by decide) (by decide) (by decide)
      (by decide)⟩

theorem getEntry_mv_dest (e : Engine) (p q : List Char) (en : TreeEntry)
    (hne : normalizePath p ≠ normalizePath q) :
    getEntry (deleteEntry (setEntry e (normalizePath q) en) p) q = some en := by
  unfold getEntry
  rw [curTree_deleteEntry, curTree_setEntry, normalizePath_idem, alookup_aerase,
    if_neg (fun hh => hne hh.symm), alookup_ainsert, if_pos rfl]

/-- C3 counterexample: `mv(p, p)` with `p` an existing text file succeeds
but deletes the file (the tree inserts the entry at the destination and
then deletes the same key), so the entry at the destination does not carry
the old body pointer. -/
theorem claim3_mv_counterexample :
    ((writeFile (fun _ => ['h']) (createEngine emptyStore 0) ("/a.txt".toList)
        (.str [120]) 1).bind
      (fun s => mv s ("/a.txt".toList) ("/a.txt".toList) 2)).isSome = true ∧
    ((writeFile (fun _ => ['h']) (createEngine emptyStore 0) ("/a.txt".toList)
        (.str [120]) 1).bind
      (fun s => (mv s ("/a.txt".toList) ("/a.txt".toList) 2).bind
        (fun s2 => getEntry s2 ("/a.txt".toList)))) = none :=
  ⟨by decide, by decide⟩

/-- C3 (amended).  For every file entry at `p` (with a genuine body
pointer) and destination `q` whose parent exists as a directory, provided
`q` does not normalize to the same key as `p`: after `mv(p, q)` the entry
at `q` carries the same `fileDocId` and `blobHash`, `read(q)` equals the
pre-move `read(p)`, `getFileHeads(q)` equals the pre-move
`getFileHeads(p)`, `ctime` is preserved and `mtime` is set to now; and
`mv` of a directory fails.  When `normalize(q) = normalize(p)`, `mv`
instead deletes the entry. -/
theorem claim3_mv_amended (e : Engine) (p q r : List Char) (now : Nat)
    (hf : isFileAt e p = true)
    (hpar : isDirAt e (getParentPath (normalizePath q)) = true)
    (hne : normalizePath p ≠ normalizePath q)
    (hbody : (getEntry e p).bind (fun en => optTruthy en.blobHash) =
      (getEntry e p).bind (fun en => en.blobHash))
    (hdirr : isDirAt e r = true) :
    ((mv e p q now).bind (fun s => getEntry s q)).map (fun en => en.fileDocId) =
      (getEntry e p).map (fun en => en.fileDocId) ∧
    ((mv e p q now).bind (fun s => getEntry s q)).map (fun en => en.blobHash) =
      (getEntry e p).map (fun en => en.blobHash) ∧
    (mv e p q now).bind (fun s => readFile s q) = readFile e p ∧
    (mv e p q now).map (fun s => getFileHeads s q) = some (getFileHeads e p) ∧
    ((mv e p q now).bind (fun s => getEntry s q)).map
      (fun en => en.metadata.ctime) =
      (getEntry e p).map (fun en => en.metadata.ctime) ∧
    ((mv e p q now).bind (fun s => getEntry s q)).map
      (fun en => en.metadata.mtime) = some now ∧
    mv e r q now = none := by
  rcases hsrc : getEntry e p with _ | en
  · unfold isFileAt at hf
    rw [hsrc] at hf
    cases hf
  · have htype : en.type = EKind.file := by
      unfold isFileAt at hf
      rw [hsrc] at hf
      simpa using hf
    rcases hpp : getEntry e (getParentPath (normalizePath q)) with _ | parent
    · unfold isDirAt isDirEntry at hpar
      rw [hpp] at hpar
      cases hpar
    · have hpt : ¬ parent.type ≠ EKind.directory := by
        unfold isDirAt isDirEntry at hpar
        rw [hpp] at hpar
        simp at hpar
        simp [hpar]
      have hot : optTruthy en.blobHash = en.blobHash := by
        rw [hsrc] at hbody
        exact hbody
      have hmv : mv e p q now = some (deleteEntry (setEntry e (normalizePath q)
          { type := en.type
            parent := some (getParentPath (normalizePath q))
            name := getBasename (normalizePath q)
            metadata :=
              { size := en.metadata.size
                mode := en.metadata.mode
                mtime := now
                ctime := en.metadata.ctime }
            fileDocId := en.fileDocId
            blobHash := optTruthy en.blobHash }) p) := by
        simp only [mv, hsrc, htype, eq_self_iff_true, if_true, hpp, if_neg hpt]
      rw [hot] at hmv
      have hq := getEntry_mv_dest e p q
        { type := en.type
          parent := some (getParentPath (normalizePath q))
          name := getBasename (normalizePath q)
          metadata :=
            { size := en.metadata.size
              mode := en.metadata.mode
              mtime := now
              ctime := en.metadata.ctime }
          fileDocId := en.fileDocId
          blobHash := en.blobHash } hne
      rw [hmv]
      refine ⟨?_, ?_, ?_, ?_, ?_, ?_, ?_⟩
      · simp [hq, hsrc]
      · simp [hq, hsrc]
      · simp only [Option.some_bind]
        unfold readFile
        rw [hq, hsrc, htype]
        show (if EKind.file ≠ EKind.file then none
            else
              match optTruthy en.blobHash with
              | some h =>
                match alookup e.store.blobs h with
                | some blob => some blob
                | none => none
              | none =>
                match en.fileDocId with
                | some d =>
                  match alookup e.store.fileDocs d with
                  | some doc => some (utf8Encode doc.content)
                  | none => none
                | none => some []) =
            if en.type ≠ EKind.file then none
            else
              match optTruthy en.blobHash with
              | some h =>
                match alookup e.store.blobs h with
                | some blob => some blob
                | none => none
              | none =>
                match en.fileDocId with
                | some d =>
                  match alookup e.store.fileDocs d with
                  | some doc => some (utf8Encode doc.content)
                  | none => none
                | none => some []
        rw [htype]
      · simp only [Option.map_some']
        unfold getFileHeads
        rw [hq, hsrc]
        show some (match en.fileDocId with
            | none => some []
            | some d =>
              match alookup e.store.fileDocs d with
              | none => none
              | some doc => some [doc.version]) =
          some (match en.fileDocId with
            | none => some []
            | some d =>
              match alookup e.store.fileDocs d with
              | none => none
              | some doc => some [doc.version])
        rfl
      · simp [hq, hsrc]
      · simp [hq]
      · rcases hr : getEntry e r with _ | enr
        · unfold isDirAt isDirEntry at hdirr
          rw [hr] at hdirr
          cases hdirr
        · have hrt : enr.type = EKind.directory := by
            unfold isDirAt isDirEntry at hdirr
            rw [hr] at hdirr
            simpa using hdirr
          simp only [mv, hr, hrt]
          simp

/-- C3 witness: move `/f` to `/g` in the populated engine, with `/d` the
directory whose move must fail. -/
theorem claim3_mv_witness :
    (isFileAt sampleEngine ("/f".toList) = true) ∧
    (isDirAt sampleEngine (getParentPath (normalizePath ("/g".toList))) = true) ∧
    (normalizePath ("/f".toList) ≠ normalizePath ("/g".toList)) ∧
    ((getEntry sampleEngine ("/f".toList)).bind
        (fun en => optTruthy en.blobHash) =
      (getEntry sampleEngine ("/f".toList)).bind (fun en => en.blobHash)) ∧
    (isDirAt sampleEngine ("/d".toList) = true) ∧
    (((mv sampleEngine ("/f".toList) ("/g".toList) 9).bind
        (fun s => getEntry s ("/g".toList))).map (fun en => en.fileDocId) =
      (getEntry sampleEngine ("/f".toList)).map (fun en => en.fileDocId) ∧
     ((mv sampleEngine ("/f".toList) ("/g".toList) 9).bind
        (fun s => getEntry s ("/g".toList))).map (fun en => en.blobHash) =
      (getEntry sampleEngine ("/f".toList)).map (fun en => en.blobHash) ∧
     (mv sampleEngine ("/f".toList) ("/g".toList) 9).bind
        (fun s => readFile s ("/g".toList)) = readFile sampleEngine ("/f".toList) ∧
     (mv sampleEngine ("/f".toList) ("/g".toList) 9).map
        (fun s => getFileHeads s ("/g".toList)) =
          some (getFileHeads sampleEngine ("/f".toList)) ∧
     ((mv sampleEngine ("/f".toList) ("/g".toList) 9).bind
        (fun s => getEntry s ("/g".toList))).map (fun en => en.metadata.ctime) =
      (getEntry sampleEngine ("/f".toList)).map (fun en => en.metadata.ctime) ∧
     ((mv sampleEngine ("/f".toList) ("/g".toList) 9).bind
        (fun s => getEntry s ("/g".toList))).map (fun en => en.metadata.mtime) =
          some 9 ∧
     mv sampleEngine ("/d".toList) ("/g".toList) 9 = none) :=
  ⟨by decide, by decide, by decide, by decide, by decide,
    claim3_mv_amended sampleEngine ("/f".toList) ("/g".toList) ("/d".toList) 9
      (by decide) (by decide) (by decide) (by decide) (by decide)⟩

/-- C4: `writeFile` routes a string argument to the text store (per-file
document, no blob entry added); a bytes argument is classified by strict
UTF-8 decoding — decodable bytes land in a text document holding the
`TextDecoder`-decoded text (with its default leading-BOM stripping), while
non-decodable bytes are stored as a blob keyed by the digest of the bytes,
after which `getFileHeads` returns the empty list. -/
theorem claim4_routing (hashHex : List Nat → List Char) (e : Engine)
    (path : List Char) (now : Nat) (c b bb : List Nat)
    (hdec : isBinary b = false)
    (hbin : isBinary bb = true)
    (h1 : (writeFile hashHex e path (.str c) now).isSome = true)
    (h2 : (writeFile hashHex e path (.bytes b) now).isSome = true)
    (h3 : (writeFile hashHex e path (.bytes bb) now).isSome = true) :
    (((writeFile hashHex e path (.str c) now).bind
        (fun s => getEntry s path)).map (fun en => en.blobHash) = some none ∧
     (∃ d doc, ((writeFile hashHex e path (.str c) now).bind
          (fun s => getEntry s path)).bind (fun en => en.fileDocId) = some d ∧
        (writeFile hashHex e path (.str c) now).bind
          (fun s => alookup s.store.fileDocs d) = some doc ∧
        doc.content = c) ∧
     (∀ hsh x, (writeFile hashHex e path (.str c) now).bind
         (fun s => alookup s.store.blobs hsh) = some x →
       alookup e.store.blobs hsh = some x)) ∧
    (((writeFile hashHex e path (.bytes b) now).bind
        (fun s => getEntry s path)).map (fun en => en.blobHash) = some none ∧
     (∃ d doc, ((writeFile hashHex e path (.bytes b) now).bind
          (fun s => getEntry s path)).bind (fun en => en.fileDocId) = some d ∧
        (writeFile hashHex e path (.bytes b) now).bind
          (fun s => alookup s.store.fileDocs d) = some doc ∧
        doc.content = utf8DecodeLossy b)) ∧
    (((writeFile hashHex e path (.bytes bb) now).bind
        (fun s => getEntry s path)).map (fun en => en.blobHash) =
          some (some (hashHex bb)) ∧
     ((writeFile hashHex e path (.bytes bb) now).bind
        (fun s => getEntry s path)).map (fun en => en.fileDocId) = some none ∧
     (writeFile hashHex e path (.bytes bb) now).bind
        (fun s => alookup s.store.blobs (hashHex bb)) = some bb ∧
     (writeFile hashHex e path (.bytes bb) now).map
        (fun s => getFileHeads s path) = some (some [])) := by
  rcases hw1 : writeFile hashHex e path (.str c) now with _ | s1
  · rw [hw1] at h1
    exact Bool.noConfusion h1
  · rcases hw2 : writeFile hashHex e path (.bytes b) now with _ | s2
    · rw [hw2] at h2
      exact Bool.noConfusion h2
    · rcases hw3 : writeFile hashHex e path (.bytes bb) now with _ | s3
      · rw [hw3] at h3
        exact Bool.noConfusion h3
      · obtain ⟨en1, hen1, ht1, _, htx1⟩ :=
          writeFile_success_entry hashHex e path (.str c) now s1 hw1
        obtain ⟨hbh1, d1, doc1, hfd1, hdoc1, hct1, hmono1⟩ := htx1 rfl
        obtain ⟨en2, hen2, ht2, _, htx2⟩ :=
          writeFile_success_entry hashHex e path (.bytes b) now s2 hw2
        obtain ⟨hbh2, d2, doc2, hfd2, hdoc2, hct2, hmono2⟩ := htx2 hdec
        obtain ⟨en3, hen3, ht3, hbin3, _⟩ :=
          writeFile_success_entry hashHex e path (.bytes bb) now s3 hw3
        obtain ⟨hbh3, hfd3, hblob3⟩ := hbin3 hbin
        refine ⟨⟨?_, ⟨d1, doc1, ?_, ?_, ?_⟩, ?_⟩,
          ⟨?_, ⟨d2, doc2, ?_, ?_, ?_⟩⟩, ?_, ?_, ?_, ?_⟩
        · simp only [Option.some_bind, hen1, Option.map_some']
          rw [hbh1]
        · simp only [Option.some_bind, hen1]
          rw [hfd1]
        · simp only [Option.some_bind]
          exact hdoc1
        · exact hct1
        · intro hsh x hx
          simp only [Option.some_bind] at hx
          exact hmono1 hsh x hx
        · simp only [Option.some_bind, hen2, Option.map_some']
          rw [hbh2]
        · simp only [Option.some_bind, hen2]
          rw [hfd2]
        · simp only [Option.some_bind]
          exact hdoc2
        · exact hct2
        · simp only [Option.some_bind, hen3, Option.map_some']
          rw [hbh3]
          rfl
        · simp only [Option.some_bind, hen3, Option.map_some']
          rw [hfd3]
        · simp only [Option.some_bind]
          exact hblob3
        · simp only [Option.map_some']
          have hgf : getFileHeads s3 path = some [] := by
            unfold getFileHeads
            rw [hen3]
            show (match en3.fileDocId with
              | none => some []
              | some d =>
                match alookup s3.store.fileDocs d with
                | none => none
                | some doc => some [doc.version]) = some []
            rw [hfd3]
          rw [hgf]

/-- C4 witness: writing the string "h", the decodable byte 0x68 and the
non-decodable byte 0xff at `/x` in a fresh engine. -/
theorem claim4_routing_witness :
    (isBinary [104] = false) ∧
    (isBinary [255] = true) ∧
    ((writeFile (fun _ => ['h']) (createEngine emptyStore 0) ("/x".toList)
        (.str [104]) 1).isSome = true) ∧
    ((writeFile (fun _ => ['h']) (createEngine emptyStore 0) ("/x".toList)
        (.bytes [104]) 1).isSome = true) ∧
    ((writeFile (fun _ => ['h']) (createEngine emptyStore 0) ("/x".toList)
        (.bytes [255]) 1).isSome = true) ∧
    ((((writeFile (fun _ => ['h']) (createEngine emptyStore 0) ("/x".toList)
          (.str [104]) 1).bind
        (fun s => getEntry s ("/x".toList))).map (fun en => en.blobHash) =
          some none ∧
      (∃ d doc, ((writeFile (fun _ => ['h']) (createEngine emptyStore 0)
            ("/x".toList) (.str [104]) 1).bind
          (fun s => getEntry s ("/x".toList))).bind (fun en => en.fileDocId) =
            some d ∧
        (writeFile (fun _ => ['h']) (createEngine emptyStore 0) ("/x".toList)
            (.str [104]) 1).bind
          (fun s => alookup s.store.fileDocs d) = some doc ∧
        doc.content = [104]) ∧
      (∀ hsh x, (writeFile (fun _ => ['h']) (createEngine emptyStore 0)
           ("/x".toList) (.str [104]) 1).bind
          (fun s => alookup s.store.blobs hsh) = some x →
        alookup (createEngine emptyStore 0).store.blobs hsh = some x)) ∧
     (((writeFile (fun _ => ['h']) (createEngine emptyStore 0) ("/x".toList)
          (.bytes [104]) 1).bind
        (fun s => getEntry s ("/x".toList))).map (fun en => en.blobHash) =
          some none ∧
      (∃ d doc, ((writeFile (fun _ => ['h']) (createEngine emptyStore 0)
            ("/x".toList) (.bytes [104]) 1).bind
          (fun s => getEntry s ("/x".toList))).bind (fun en => en.fileDocId) =
            some d ∧
        (writeFile (fun _ => ['h']) (createEngine emptyStore 0) ("/x".toList)
            (.bytes [104]) 1).bind
          (fun s => alookup s.store.fileDocs d) = some doc ∧
        doc.content = utf8DecodeLossy [104])) ∧
     (((writeFile (fun _ => ['h']) (createEngine emptyStore 0) ("/x".toList)
          (.bytes [255]) 1).bind
        (fun s => getEntry s ("/x".toList))).map (fun en => en.blobHash) =
          some (some ['h']) ∧
      ((writeFile (fun _ => ['h']) (createEngine emptyStore 0) ("/x".toList)
          (.bytes [255]) 1).bind
        (fun s => getEntry s ("/x".toList))).map (fun en => en.fileDocId) =
          some none ∧
      (writeFile (fun _ => ['h']) (createEngine emptyStore 0) ("/x".toList)
          (.bytes [255]) 1).bind
        (fun s => alookup s.store.blobs ['h']) = some [255] ∧
      (writeFile (fun _ => ['h']) (createEngine emptyStore 0) ("/x".toList)
          (.bytes [255]) 1).map
        (fun s => getFileHeads s ("/x".toList)) = some (some []))) :=
  ⟨by decide, by decide, by decide, by decide, by decide,
    claim4_routing (fun _ => ['h']) (createEngine emptyStore 0) ("/x".toList)
      1 [104] [104] [255] (by decide) (by decide) (by decide) (by decide)
      (by decide)⟩

theorem readFile_blob (e : Engine) (p : List Char) (en : TreeEntry)
    (bh : List Char) (bBytes : List Nat)
    (hen : getEntry e p = some en) (htype : en.type = EKind.file)
    (hbh : optTruthy en.blobHash = some bh)
    (hblob : alookup e.store.blobs bh = some bBytes) :
    readFile e p = some bBytes := by
  unfold readFile
  rw [hen]
  show (if en.type ≠ EKind.file then none
      else
        match optTruthy en.blobHash with
        | some h =>
          match alookup e.store.blobs h with
          | some blob => some blob
          | none => none
        | none =>
          match en.fileDocId with
          | some d =>
            match alookup e.store.fileDocs d with
            | some doc => some (utf8Encode doc.content)
            | none => none
          | none => some []) = some bBytes
  rw [htype, hbh]
  show (match alookup e.store.blobs bh with
      | some blob => some blob
      | none => none) = some bBytes
  rw [hblob]

/-- C10 (implicit): `appendFile` on a binary file (one whose entry carries a
`blobHash` and no `fileDocId`) converts it into a text file: the write
creates a fresh text document (id = the next document id) whose content is
the lossy UTF-8 decoding of the blob bytes followed by the appended text,
the old blob is deleted from the blob store, and the entry afterwards
carries the new `fileDocId` and no `blobHash`. -/
theorem claim10_append_binary (hashHex : List Nat → List Char) (e : Engine)
    (p : List Char) (t : List Nat) (now : Nat) (en : TreeEntry)
    (bh : List Char) (bBytes : List Nat)
    (hen : getEntry e p = some en)
    (htype : en.type = EKind.file)
    (hfd : en.fileDocId = none)
    (hbh : optTruthy en.blobHash = some bh)
    (hblob : alookup e.store.blobs bh = some bBytes)
    (hpar : isDirAt e (getParentPath (normalizePath p)) = true) :
    (appendFile hashHex e p t now).isSome = true ∧
    ((appendFile hashHex e p t now).bind (fun s => getEntry s p)).map
      (fun en2 => en2.blobHash) = some none ∧
    ((appendFile hashHex e p t now).bind (fun s => getEntry s p)).bind
      (fun en2 => en2.fileDocId) = some e.store.nextDocId ∧
    (appendFile hashHex e p t now).bind
      (fun s => alookup s.store.fileDocs e.store.nextDocId) =
        some { content := utf8DecodeLossy bBytes ++ t, version := 1 } ∧
    (appendFile hashHex e p t now).bind
      (fun s => alookup s.store.blobs bh) = none := by
  have hen' : getEntry e (normalizePath p) = some en := by
    rw [getEntry_norm]
    exact hen
  have hrf : readFile e (normalizePath p) = some bBytes :=
    readFile_blob e (normalizePath p) en bh bBytes hen' htype hbh hblob
  have happ : appendFile hashHex e p t now =
      writeFile hashHex e (normalizePath p)
        (.str (utf8DecodeLossy bBytes ++ t)) now := by
    simp only [appendFile, hrf]
  rcases hpp : getEntry e (getParentPath (normalizePath p)) with _ | parent
  · unfold isDirAt isDirEntry at hpar
    rw [hpp] at hpar
    cases hpar
  · have hdir : ¬ parent.type ≠ EKind.directory := by
      unfold isDirAt isDirEntry at hpar
      rw [hpp] at hpar
      simp at hpar
      simp [hpar]
    rcases hcd : createFileDoc e (utf8DecodeLossy bBytes ++ t) with ⟨e1, d⟩
    have he1 : e1 = (createFileDoc e (utf8DecodeLossy bBytes ++ t)).1 := by
      rw [hcd]
    have hd : d = e.store.nextDocId := by
      have : d = (createFileDoc e (utf8DecodeLossy bBytes ++ t)).2 := by
        rw [hcd]
      rw [this, snd_createFileDoc]
    rw [happ]
    have hpp2 : getEntry e (getParentPath (normalizePath (normalizePath p))) =
        some parent := by
      rw [normalizePath_idem]
      exact hpp
    have hen2 : getEntry e (normalizePath (normalizePath p)) = some en := by
      rw [normalizePath_idem]
      exact hen'
    simp only [writeFile, normalizePath_idem, hpp, if_neg hdir, hen',
      contentIsBinary, Bool.false_eq_true, if_false, hfd, hcd, hbh,
      contentText, contentBytes]
    refine ⟨rfl, ?_, ?_, ?_, ?_⟩
    · simp only [Option.some_bind, getEntry_setEntry_norm, Option.map_some']
    · simp only [Option.some_bind, getEntry_setEntry_norm]
      rw [hd]
    · simp only [Option.some_bind, fileDocs_setEntry, fileDocs_deleteBlob]
      rw [he1, fileDocs_createFileDoc, alookup_ainsert, if_pos rfl]
    · simp only [Option.some_bind, blobs_setEntry, blobs_deleteBlob]
      rw [alookup_aerase, if_pos rfl]

/-- A fresh engine holding one binary file `/b` (bytes `[0xff]`). -/
def sampleBinaryEngine : Engine :=
  let e0 := createEngine emptyStore 0
  (writeFile (fun _ => ['h']) e0 ("/b".toList) (.bytes [255]) 1).getD e0

def sampleBinaryEntry : TreeEntry :=
  { type := EKind.file
    parent := some ("/".toList)
    name := "b".toList
    metadata := { size := 1, mode := 420, mtime := 1, ctime := 1 }
    fileDocId := none
    blobHash := some ['h'] }

/-- C10 witness: appending the byte `h` to the binary file `/b`. -/
theorem claim10_append_binary_witness :
    (getEntry sampleBinaryEngine ("/b".toList) = some sampleBinaryEntry) ∧
    (sampleBinaryEntry.type = EKind.file) ∧
    (sampleBinaryEntry.fileDocId = none) ∧
    (optTruthy sampleBinaryEntry.blobHash = some ['h']) ∧
    (alookup sampleBinaryEngine.store.blobs ['h'] = some [255]) ∧
    (isDirAt sampleBinaryEngine
      (getParentPath (normalizePath ("/b".toList))) = true) ∧
    ((appendFile (fun _ => ['h']) sampleBinaryEngine ("/b".toList) [104]
        5).isSome = true ∧
     ((appendFile (fun _ => ['h']) sampleBinaryEngine ("/b".toList) [104]
          5).bind
        (fun s => getEntry s ("/b".toList))).map (fun en2 => en2.blobHash) =
          some none ∧
     ((appendFile (fun _ => ['h']) sampleBinaryEngine ("/b".toList) [104]
          5).bind
        (fun s => getEntry s ("/b".toList))).bind (fun en2 => en2.fileDocId) =
          some sampleBinaryEngine.store.nextDocId ∧
     (appendFile (fun _ => ['h']) sampleBinaryEngine ("/b".toList) [104]
          5).bind
        (fun s => alookup s.store.fileDocs
          sampleBinaryEngine.store.nextDocId) =
          some { content := utf8DecodeLossy [255] ++ [104], version := 1 } ∧
     (appendFile (fun _ => ['h']) sampleBinaryEngine ("/b".toList) [104]
          5).bind
        (fun s => alookup s.store.blobs ['h']) = none) :=
  ⟨by decide, by decide, by decide, by decide, by decide, by decide,
    claim10_append_binary (fun _ => ['h']) sampleBinaryEngine ("/b".toList)
      [104] 5 sampleBinaryEntry ['h'] [255] (by decide) (by decide)
      (by decide) (by decide) (by decide) (by decide)⟩

/-- The engine's root document is known to its storage backend. -/
def rootOk (e : Engine) : Bool :=
  (alookup e.store.rootTrees e.rootUrl).isSome

theorem rootOk_setTree (e : Engine) (t : List (List Char × TreeEntry)) :
    rootOk (e.setTree t) = true := by
  show (alookup (ainsert e.store.rootTrees e.rootUrl t) e.rootUrl).isSome = true
  rw [alookup_ainsert, if_pos rfl]
  rfl

theorem rootOk_setEntry (e : Engine) (p : List Char) (en : TreeEntry) :
    rootOk (setEntry e p en) = true :=
  rootOk_setTree e _

theorem rootOk_deleteEntry (e : Engine) (p : List Char) :
    rootOk (deleteEntry e p) = true :=
  rootOk_setTree e _

theorem createEngine_rootOk (st : Store) (now : Nat) :
    rootOk (createEngine st now) = true := by
  show (alookup (ainsert st.rootTrees st.nextDocId
    (ainsert [] ['/'] (rootEntry now))) st.nextDocId).isSome = true
  rw [alookup_ainsert, if_pos rfl]
  rfl

theorem writeFile_shape (hashHex : List Nat → List Char) (e : Engine)
    (path : List Char) (content : FileContent) (now : Nat) (e1 : Engine)
    (h : writeFile hashHex e path content now = some e1) :
    ∃ e2 en, e1 = setEntry e2 (normalizePath path) en := by
  rcases hpar : getEntry e (getParentPath (normalizePath path)) with _ | parent
  · simp only [writeFile, hpar] at h
    exact Option.noConfusion h
  · by_cases hdir : parent.type ≠ EKind.directory
    · simp only [writeFile, hpar, if_pos hdir] at h
      exact Option.noConfusion h
    · rcases hbc : contentIsBinary content with _ | _
      · rcases hex : getEntry e (normalizePath path) with _ | ex
        · rcases hcd : createFileDoc e (contentText content) with ⟨e2, d⟩
          simp only [writeFile, hpar, if_neg hdir, hex, hbc, Bool.false_eq_true,
            if_false, hcd] at h
          injection h with h
          exact ⟨_, _, h.symm⟩
        · rcases hfd : ex.fileDocId with _ | d
          · rcases hcd : createFileDoc e (contentText content) with ⟨e2, d⟩
            rcases hbh : optTruthy ex.blobHash with _ | bh <;>
            · simp only [writeFile, hpar, if_neg hdir, hex, hfd, hbc,
                Bool.false_eq_true, if_false, hcd, hbh] at h
              injection h with h
              exact ⟨_, _, h.symm⟩
          · rcases hdoc : alookup e.store.fileDocs d with _ | doc0
            · simp only [writeFile, hpar, if_neg hdir, hex, hfd, hdoc, hbc,
                Bool.false_eq_true, if_false] at h
              exact Option.noConfusion h
            · rcases hbh : optTruthy ex.blobHash with _ | bh <;>
              · simp only [writeFile, hpar, if_neg hdir, hex, hfd, hdoc, hbc,
                  Bool.false_eq_true, if_false, hbh] at h
                injection h with h
                exact ⟨_, _, h.symm⟩
      · rcases hex : getEntry e (normalizePath path) with _ | ex
        · simp only [writeFile, hpar, if_neg hdir, hex, hbc, eq_self_iff_true,
            if_true] at h
          injection h with h
          exact ⟨_, _, h.symm⟩
        · rcases hfd : ex.fileDocId with _ | dd <;>
          · simp only [writeFile, hpar, if_neg hdir, hex, hfd, hbc,
              eq_self_iff_true, if_true] at h
            injection h with h
            exact ⟨_, _, h.symm⟩

theorem writeFile_rootOk (hashHex : List Nat → List Char) (e : Engine)
    (path : List Char) (content : FileContent) (now : Nat) (e1 : Engine)
    (h : writeFile hashHex e path content now = some e1) :
    rootOk e1 = true := by
  obtain ⟨e2, en, he⟩ := writeFile_shape hashHex e path content now e1 h
  rw [he]
  exact rootOk_setEntry e2 _ en

theorem appendFile_rootOk (hashHex : List Nat → List Char) (e : Engine)
    (path : List Char) (c : List Nat) (now : Nat) (e1 : Engine)
    (h : appendFile hashHex e path c now = some e1) :
    rootOk e1 = true := by
  rcases hrd : readFile e (normalizePath path) with _ | ex
  · simp only [appendFile, hrd] at h
    exact writeFile_rootOk hashHex e (normalizePath path) (.str c) now e1 h
  · simp only [appendFile, hrd] at h
    exact writeFile_rootOk hashHex e (normalizePath path)
      (.str (utf8DecodeLossy ex ++ c)) now e1 h

theorem mkdirF_rootOk (fuel : Nat) (e : Engine) (path : List Char) (r : Bool)
    (now : Nat) (e1 : Engine)
    (h : mkdirF fuel e path r now = some e1) (hro : rootOk e = true) :
    rootOk e1 = true := by
  cases fuel with
  | zero => exact Option.noConfusion h
  | succ fuel =>
    rcases hex : getEntry e (normalizePath path) with _ | existing
    · rcases hpr : getEntry e (getParentPath (normalizePath path)) with _ | parent
      · cases r with
        | false =>
          simp only [mkdirF, hex, hpr, Bool.false_eq_true, if_false] at h
          exact Option.noConfusion h
        | true =>
          rcases hmk : mkdirF fuel e (getParentPath (normalizePath path))
              true now with _ | e2
          · simp only [mkdirF, hex, hpr, if_true, hmk] at h
            exact Option.noConfusion h
          · simp only [mkdirF, hex, hpr, if_true, hmk] at h
            injection h with h
            rw [← h]
            exact rootOk_setEntry e2 _ _
      · by_cases hdir : parent.type ≠ EKind.directory
        · simp only [mkdirF, hex, hpr, if_pos hdir] at h
          exact Option.noConfusion h
        · simp only [mkdirF, hex, hpr, if_neg hdir] at h
          injection h with h
          rw [← h]
          exact rootOk_setEntry e _ _
    · by_cases ht : existing.type = EKind.directory
      · simp only [mkdirF, hex, if_pos ht] at h
        injection h with h
        rw [← h]
        exact hro
      · simp only [mkdirF, hex, if_neg ht] at h
        exact Option.noConfusion h

theorem mkdir_rootOk (e : Engine) (path : List Char) (r : Bool) (now : Nat)
    (e1 : Engine) (h : mkdir e path r now = some e1) (hro : rootOk e = true) :
    rootOk e1 = true :=
  mkdirF_rootOk _ e path r now e1 h hro

theorem unlink_rootOk (e : Engine) (path : List Char) (e1 : Engine)
    (h : unlink e path = some e1) : rootOk e1 = true := by
  rcases hex : getEntry e (normalizePath path) with _ | en
  · simp only [unlink, hex] at h
    exact Option.noConfusion h
  · simp only [unlink, hex] at h
    injection h with h
    rw [← h]
    exact rootOk_deleteEntry _ _

theorem rmF_rootOk (fuel : Nat) (e : Engine) (path : List Char) (r : Bool)
    (e1 : Engine) (h : rmF fuel e path r = some e1) : rootOk e1 = true := by
  cases fuel with
  | zero => exact Option.noConfusion h
  | succ fuel =>
    rcases hex : getEntry e (normalizePath path) with _ | en
    · simp only [rmF, hex] at h
      exact Option.noConfusion h
    · simp only [rmF, hex] at h
      split at h
      · exact Option.noConfusion h
      · injection h with h
        rw [← h]
        exact rootOk_deleteEntry _ _

theorem rm_rootOk (e : Engine) (path : List Char) (r : Bool) (e1 : Engine)
    (h : rm e path r = some e1) : rootOk e1 = true :=
  rmF_rootOk _ e path r e1 h

theorem mv_rootOk (e : Engine) (src dest : List Char) (now : Nat) (e1 : Engine)
    (h : mv e src dest now = some e1) : rootOk e1 = true := by
  rcases hsrc : getEntry e src with _ | srcEntry
  · simp only [mv, hsrc] at h
    exact Option.noConfusion h
  · by_cases ht : srcEntry.type = EKind.file
    · rcases hpr : getEntry e (getParentPath (normalizePath dest)) with _ | parent
      · simp only [mv, hsrc, if_pos ht, hpr] at h
        exact Option.noConfusion h
      · by_cases hdir : parent.type ≠ EKind.directory
        · simp only [mv, hsrc, if_pos ht, hpr, if_pos hdir] at h
          exact Option.noConfusion h
        · simp only [mv, hsrc, if_pos ht, hpr, if_neg hdir] at h
          injection h with h
          rw [← h]
          exact rootOk_deleteEntry _ _
    · simp only [mv, hsrc, if_neg ht] at h
      exact Option.noConfusion h

theorem chmod_rootOk (e : Engine) (path : List Char) (m : Nat) (e1 : Engine)
    (h : chmod e path m = some e1) : rootOk e1 = true := by
  rcases hex : getEntry e (normalizePath path) with _ | en
  · simp only [chmod, hex] at h
    exact Option.noConfusion h
  · simp only [chmod, hex] at h
    injection h with h
    rw [← h]
    exact rootOk_setTree _ _

theorem utimes_rootOk (e : Engine) (path : List Char) (a m : Nat) (e1 : Engine)
    (h : utimes e path a m = some e1) : rootOk e1 = true := by
  rcases hex : getEntry e (normalizePath path) with _ | en
  · simp only [utimes, hex] at h
    exact Option.noConfusion h
  · simp only [utimes, hex] at h
    injection h with h
    rw [← h]
    exact rootOk_setTree _ _

theorem foldl_opt_preserve (f : Engine → List Char → Option Engine)
    (hf : ∀ e c e', f e c = some e' → rootOk e = true → rootOk e' = true)
    (l : List (List Char)) :
    ∀ (a : Option Engine) (e' : Engine),
      l.foldl (fun acc c => match acc with
        | none => none
        | some e => f e c) a = some e' →
      (∀ e0, a = some e0 → rootOk e0 = true) → rootOk e' = true := by
  induction l with
  | nil =>
    intro a e' h ha
    exact ha e' h
  | cons c l ih =>
    intro a e' h ha
    refine ih _ e' h ?_
    intro e0 h0
    rcases a with _ | ea
    · exact Option.noConfusion h0
    · exact hf ea c e0 h0 (ha ea rfl)

theorem cpF_rootOk (hashHex : List Nat → List Char) (fuel : Nat) :
    ∀ (e : Engine) (src dest : List Char) (r : Bool) (now : Nat) (e1 : Engine),
      cpF hashHex fuel e src dest r now = some e1 → rootOk e = true →
      rootOk e1 = true := by
  induction fuel with
  | zero =>
    intro e src dest r now e1 h hro
    exact Option.noConfusion h
  | succ fuel ih =>
    intro e src dest r now e1 h hro
    rcases hsrc : getEntry e src with _ | srcEntry
    · simp only [cpF, hsrc] at h
      exact Option.noConfusion h
    · by_cases ht : srcEntry.type = EKind.file
      · simp only [cpF, hsrc, if_pos ht] at h
        rcases hrd : readFile e src with _ | content
        · rw [hrd] at h
          exact Option.noConfusion h
        · rw [hrd] at h
          have h2 : writeFile hashHex e dest (.bytes content) now = some e1 := h
          exact writeFile_rootOk hashHex e dest (.bytes content) now e1 h2
      · cases r with
        | false =>
          simp only [cpF, hsrc, if_neg ht, Bool.false_eq_true, if_false] at h
          exact Option.noConfusion h
        | true =>
          rcases hmk : mkdir e dest true now with _ | e2
          · simp only [cpF, hsrc, if_neg ht, if_true, hmk] at h
            exact Option.noConfusion h
          · simp only [cpF, hsrc, if_neg ht, if_true, hmk] at h
            refine foldl_opt_preserve
              (fun e3 childName => cpF hashHex fuel e3
                (if normalizePath src = ['/'] then '/' :: childName
                  else normalizePath src ++ '/' :: childName)
                (if normalizePath dest = ['/'] then '/' :: childName
                  else normalizePath dest ++ '/' :: childName)
                true now)
              (fun e3 c e4 hh hro3 => ih e3 _ _ true now e4 hh hro3)
              (childNames e2 (normalizePath src)) (some e2) e1 h ?_
            intro e0 h0
            injection h0 with h0
            rw [← h0]
            exact mkdir_rootOk e dest true now e2 hmk hro

theorem cp_rootOk (hashHex : List Nat → List Char) (e : Engine)
    (src dest : List Char) (r : Bool) (now : Nat) (e1 : Engine)
    (h : cp hashHex e src dest r now = some e1) (hro : rootOk e = true) :
    rootOk e1 = true :=
  cpF_rootOk hashHex _ e src dest r now e1 h hro

theorem runOp_rootOk (hashHex : List Nat → List Char) (e : Engine) (op : FsOp)
    (e1 : Engine) (h : runOp hashHex e op = some e1) (hro : rootOk e = true) :
    rootOk e1 = true := by
  cases op with
  | write p c now => exact writeFile_rootOk hashHex e p c now e1 h
  | append p c now => exact appendFile_rootOk hashHex e p c now e1 h
  | mkdirOp p r now => exact mkdir_rootOk e p r now e1 h hro
  | rmOp p r => exact rm_rootOk e p r e1 h
  | unlinkOp p => exact unlink_rootOk e p e1 h
  | mvOp s d now => exact mv_rootOk e s d now e1 h
  | cpOp s d r now => exact cp_rootOk hashHex e s d r now e1 h hro
  | chmodOp p m => exact chmod_rootOk e p m e1 h
  | utimesOp p a m => exact utimes_rootOk e p a m e1 h

theorem runOps_rootOk (hashHex : List Nat → List Char) (ops : List FsOp) :
    ∀ (e : Engine) (e1 : Engine), runOps hashHex e ops = some e1 →
      rootOk e = true → rootOk e1 = true := by
  induction ops with
  | nil =>
    intro e e1 h hro
    injection h with h
    rw [← h]
    exact hro
  | cons op ops ih =>
    intro e e1 h hro
    rcases hop : runOp hashHex e op with _ | e2
    · simp only [runOps, hop] at h
      exact Option.noConfusion h
    · simp only [runOps, hop] at h
      exact ih e2 e1 h (runOp_rootOk hashHex e op e2 hop hro)

/-- C7.  Reopen round-trip: after any successful sequence of operations on
a freshly created engine, loading the resulting store by the root handle
yields an engine observing the same tree (`curTree`, `getEntry`), the same
bodies (`readFile`) and the same heads (`getFileHeads`) at every path. -/
theorem claim7_reopen_roundtrip (hashHex : List Nat → List Char) (st : Store)
    (now : Nat) (ops : List FsOp) (e1 : Engine)
    (h : runOps hashHex (createEngine st now) ops = some e1) :
    ∃ e2, loadEngine e1.store e1.rootUrl = some e2 ∧
      e2.curTree = e1.curTree ∧
      (∀ p, getEntry e2 p = getEntry e1 p) ∧
      (∀ p, readFile e2 p = readFile e1 p) ∧
      (∀ p, getFileHeads e2 p = getFileHeads e1 p) := by
  have hro : rootOk e1 = true :=
    runOps_rootOk hashHex ops (createEngine st now) e1 h
      (createEngine_rootOk st now)
  unfold rootOk at hro
  rcases hrt : alookup e1.store.rootTrees e1.rootUrl with _ | tr
  · rw [hrt] at hro
    exact Bool.noConfusion hro
  · refine ⟨{ store := e1.store, rootUrl := e1.rootUrl, fileHandles := [] },
      ?_, rfl, fun p => rfl, fun p => rfl, fun p => rfl⟩
    unfold loadEngine
    rw [hrt]

/-- C7 witness: create, make a directory, write a file, then reopen. -/
theorem claim7_reopen_roundtrip_witness :
    ∃ e1, runOps (fun _ => ['h']) (createEngine emptyStore 0)
        [.mkdirOp ("/d".toList) false 1,
         .write ("/d/f".toList) (.str [104]) 2] = some e1 ∧
      ∃ e2, loadEngine e1.store e1.rootUrl = some e2 ∧
        e2.curTree = e1.curTree ∧
        (∀ p, getEntry e2 p = getEntry e1 p) ∧
        (∀ p, readFile e2 p = readFile e1 p) ∧
        (∀ p, getFileHeads e2 p = getFileHeads e1 p) := by
  have hs : (runOps (fun _ => ['h']) (createEngine emptyStore 0)
      [.mkdirOp ("/d".toList) false 1,
       .write ("/d/f".toList) (.str [104]) 2]).isSome = true := by decide
  rcases ho : runOps (fun _ => ['h']) (createEngine emptyStore 0)
      [.mkdirOp ("/d".toList) false 1,
       .write ("/d/f".toList) (.str [104]) 2] with _ | e1
  · rw [ho] at hs
    exact Bool.noConfusion hs
  · exact ⟨e1, rfl,
      claim7_reopen_roundtrip (fun _ => ['h']) emptyStore 0
        [.mkdirOp ("/d".toList) false 1,
         .write ("/d/f".toList) (.str [104]) 2] e1 ho⟩

theorem alookup_mem {α β : Type} [DecidableEq α] (l : List (α × β)) (k : α)
    (v : β) (h : alookup l k = some v) : (k, v) ∈ l := by
  induction l with
  | nil => exact Option.noConfusion h
  | cons kv rest ih =>
    rcases kv with ⟨k1, v1⟩
    simp only [alookup] at h
    split_ifs at h with hk
    · injection h with h
      rw [hk, h]
      exact List.mem_cons_self _ _
    · exact List.mem_cons_of_mem _ (ih h)

theorem treeOkB_iff (t : List (List Char × TreeEntry)) :
    treeOkB t = true ↔ isDirEntry (alookup t ['/']) = true ∧
      ∀ kv ∈ t, kv.1 = ['/'] ∨
        isDirEntry (alookup t (getParentPath kv.1)) = true := by
  unfold treeOkB
  rw [Bool.and_eq_true, List.all_eq_true]
  constructor
  · rintro ⟨h1, h2⟩
    refine ⟨h1, ?_⟩
    intro kv hkv
    have h3 := h2 kv hkv
    rw [Bool.or_eq_true, decide_eq_true_eq] at h3
    exact h3
  · rintro ⟨h1, h2⟩
    refine ⟨h1, ?_⟩
    intro kv hkv
    rw [Bool.or_eq_true, decide_eq_true_eq]
    exact h2 kv hkv

theorem mem_ainsert {α β : Type} [DecidableEq α] (l : List (α × β)) (k : α)
    (v : β) (x : α × β) (h : x ∈ ainsert l k v) : x = (k, v) ∨ x ∈ l := by
  rcases List.mem_cons.mp h with h1 | h1
  · exact Or.inl h1
  · exact Or.inr (List.mem_filter.mp h1).1

/-- Inserting a directory entry whose parent key holds a directory (or which
is the root, or its own parent) preserves the tree invariant. -/
theorem treeOkB_ainsert_dir (t : List (List Char × TreeEntry)) (k : List Char)
    (en : TreeEntry) (hdir : en.type = EKind.directory)
    (hok : treeOkB t = true)
    (hp : k = ['/'] ∨ getParentPath k = k ∨
      isDirEntry (alookup t (getParentPath k)) = true) :
    treeOkB (ainsert t k en) = true := by
  rw [treeOkB_iff] at hok ⊢
  obtain ⟨hroot, hall⟩ := hok
  have hmono : ∀ q, isDirEntry (alookup t q) = true →
      isDirEntry (alookup (ainsert t k en) q) = true := by
    intro q hq
    rw [alookup_ainsert]
    split_ifs with h
    · simp [isDirEntry, hdir]
    · exact hq
  constructor
  · rw [alookup_ainsert]
    split_ifs with h
    · simp [isDirEntry, hdir]
    · exact hroot
  · intro kv hkv
    rcases mem_ainsert t k en kv hkv with h | h
    · rw [h]
      rcases hp with h1 | h1 | h1
      · exact Or.inl h1
      · right
        show isDirEntry (alookup (ainsert t k en) (getParentPath k)) = true
        rw [h1, alookup_ainsert, if_pos rfl]
        simp [isDirEntry, hdir]
      · exact Or.inr (hmono _ h1)
    · rcases hall kv h with h1 | h1
      · exact Or.inl h1
      · exact Or.inr (hmono _ h1)

/-- Inserting any entry at a key that is currently not a directory, under a
parent key that holds a directory, preserves the tree invariant. -/
theorem treeOkB_ainsert_file (t : List (List Char × TreeEntry)) (k : List Char)
    (en : TreeEntry)
    (hok : treeOkB t = true)
    (hpar : isDirEntry (alookup t (getParentPath k)) = true)
    (hnd : isDirEntry (alookup t k) = false) :
    treeOkB (ainsert t k en) = true := by
  rw [treeOkB_iff] at hok ⊢
  obtain ⟨hroot, hall⟩ := hok
  have hkp : ¬ getParentPath k = k := by
    intro h
    rw [h] at hpar
    exact Bool.noConfusion (hnd.symm.trans hpar)
  have hpreserve : ∀ q, isDirEntry (alookup t q) = true →
      isDirEntry (alookup (ainsert t k en) q) = true := by
    intro q hq
    rw [alookup_ainsert]
    split_ifs with h
    · rw [h] at hq
      exact absurd hq (by rw [hnd]; exact Bool.noConfusion)
    · exact hq
  constructor
  · rw [alookup_ainsert]
    split_ifs with h
    · rw [← h] at hnd
      exact Bool.noConfusion (hnd.symm.trans hroot)
    · exact hroot
  · intro kv hkv
    rcases mem_ainsert t k en kv hkv with h | h
    · rw [h]
      right
      show isDirEntry (alookup (ainsert t k en) (getParentPath k)) = true
      rw [alookup_ainsert, if_neg hkp]
      exact hpar
    · rcases hall kv h with h1 | h1
      · exact Or.inl h1
      · exact Or.inr (hpreserve _ h1)

/-- Erasing a key that is not a directory preserves the tree invariant. -/
theorem treeOkB_aerase (t : List (List Char × TreeEntry)) (k : List Char)
    (hok : treeOkB t = true)
    (hnd : isDirEntry (alookup t k) = false) :
    treeOkB (aerase t k) = true := by
  rw [treeOkB_iff] at hok ⊢
  obtain ⟨hroot, hall⟩ := hok
  constructor
  · rw [alookup_aerase]
    split_ifs with h
    · rw [← h] at hnd
      exact Bool.noConfusion (hnd.symm.trans hroot)
    · exact hroot
  · intro kv hkv
    have hmem : kv ∈ t := (List.mem_filter.mp hkv).1
    rcases hall kv hmem with h1 | h1
    · exact Or.inl h1
    · right
      rw [alookup_aerase]
      split_ifs with h
      · rw [h] at h1
        exact Bool.noConfusion (hnd.symm.trans h1)
      · exact h1

/-- Replacing an entry by one of the same kind preserves the tree
invariant. -/
theorem treeOkB_replace (t : List (List Char × TreeEntry)) (k : List Char)
    (en en2 : TreeEntry)
    (hok : treeOkB t = true)
    (hlk : alookup t k = some en)
    (hty : en2.type = en.type) :
    treeOkB (ainsert t k en2) = true := by
  have hel := (treeOkB_iff t).mp hok
  rcases hdt : en.type with _ | _
  · -- file entry: the key is not a directory, and its parent is one
    have hnd : isDirEntry (alookup t k) = false := by
      rw [hlk]
      simp [isDirEntry, hdt]
    have hkroot : ¬ k = ['/'] := by
      intro h
      rw [h] at hnd
      exact Bool.noConfusion (hnd.symm.trans hel.1)
    have hpar : isDirEntry (alookup t (getParentPath k)) = true := by
      rcases hel.2 (k, en) (alookup_mem t k en hlk) with h1 | h1
      · exact absurd h1 hkroot
      · exact h1
    exact treeOkB_ainsert_file t k en2 hok hpar hnd
  · -- directory entry
    have hp : k = ['/'] ∨ getParentPath k = k ∨
        isDirEntry (alookup t (getParentPath k)) = true := by
      rcases hel.2 (k, en) (alookup_mem t k en hlk) with h1 | h1
      · exact Or.inl h1
      · exact Or.inr (Or.inr h1)
    exact treeOkB_ainsert_dir t k en2 (by rw [hty, hdt]) hok hp

theorem notDirAt_alookup (e : Engine) (p : List Char)
    (h : notDirAt e p = true) :
    isDirEntry (alookup e.curTree (normalizePath p)) = false := by
  unfold notDirAt isDirAt getEntry at h
  cases hb : isDirEntry (alookup e.curTree (normalizePath p))
  · rfl
  · rw [hb] at h
    exact Bool.noConfusion h

theorem notDirAt_norm (e : Engine) (p : List Char) :
    notDirAt e (normalizePath p) = notDirAt e p := by
  unfold notDirAt isDirAt getEntry
  rw [normalizePath_idem]

theorem writeFile_tree_shape (hashHex : List Nat → List Char) (e : Engine)
    (path : List Char) (content : FileContent) (now : Nat) (e1 : Engine)
    (h : writeFile hashHex e path content now = some e1) :
    ∃ e2 en2, e1 = setEntry e2 (normalizePath path) en2 ∧
      e2.curTree = e.curTree ∧ en2.type = EKind.file ∧
      isDirEntry (alookup e.curTree (getParentPath (normalizePath path))) =
        true := by
  rcases hpar : getEntry e (getParentPath (normalizePath path)) with _ | parent
  · simp only [writeFile, hpar] at h
    exact Option.noConfusion h
  · by_cases hdir : parent.type ≠ EKind.directory
    · simp only [writeFile, hpar, if_pos hdir] at h
      exact Option.noConfusion h
    · have hpd : isDirEntry
          (alookup e.curTree (getParentPath (normalizePath path))) = true := by
        unfold getEntry at hpar
        rw [getParentPath_normalized] at hpar
        rw [hpar]
        have hpt : parent.type = EKind.directory := not_not.mp hdir
        simp [isDirEntry, hpt]
      rcases hbc : contentIsBinary content with _ | _
      · rcases hex : getEntry e (normalizePath path) with _ | ex
        · rcases hcd : createFileDoc e (contentText content) with ⟨e2, d⟩
          have he2 : e2 = (createFileDoc e (contentText content)).1 := by
            rw [hcd]
          simp only [writeFile, hpar, if_neg hdir, hex, hbc, Bool.false_eq_true,
            if_false, hcd] at h
          injection h with h
          refine ⟨_, _, h.symm, ?_, rfl, hpd⟩
          rw [he2, curTree_createFileDoc]
        · rcases hfd : ex.fileDocId with _ | d
          · rcases hcd : createFileDoc e (contentText content) with ⟨e2, d⟩
            have he2 : e2 = (createFileDoc e (contentText content)).1 := by
              rw [hcd]
            rcases hbh : optTruthy ex.blobHash with _ | bh <;>
            · simp only [writeFile, hpar, if_neg hdir, hex, hfd, hbc,
                Bool.false_eq_true, if_false, hcd, hbh] at h
              injection h with h
              refine ⟨_, _, h.symm, ?_, rfl, hpd⟩
              try simp only [curTree_deleteBlob]
              rw [he2, curTree_createFileDoc]
          · rcases hdoc : alookup e.store.fileDocs d with _ | doc0
            · simp only [writeFile, hpar, if_neg hdir, hex, hfd, hdoc, hbc,
                Bool.false_eq_true, if_false] at h
              exact Option.noConfusion h
            · rcases hbh : optTruthy ex.blobHash with _ | bh <;>
              · simp only [writeFile, hpar, if_neg hdir, hex, hfd, hdoc, hbc,
                  Bool.false_eq_true, if_false, hbh] at h
                injection h with h
                refine ⟨_, _, h.symm, ?_, rfl, hpd⟩
                simp only [curTree_deleteBlob, curTree_updateDoc,
                  curTree_addHandle]
      · rcases hex : getEntry e (normalizePath path) with _ | ex
        · simp only [writeFile, hpar, if_neg hdir, hex, hbc, eq_self_iff_true,
            if_true] at h
          injection h with h
          refine ⟨_, _, h.symm, ?_, rfl, hpd⟩
          simp only [curTree_setBlob]
        · rcases hfd : ex.fileDocId with _ | dd <;>
          · simp only [writeFile, hpar, if_neg hdir, hex, hfd, hbc,
              eq_self_iff_true, if_true] at h
            injection h with h
            refine ⟨_, _, h.symm, ?_, rfl, hpd⟩
            simp only [curTree_evictHandle, curTree_setBlob]

theorem writeFile_treeOk (hashHex : List Nat → List Char) (e : Engine)
    (path : List Char) (content : FileContent) (now : Nat) (e1 : Engine)
    (h : writeFile hashHex e path content now = some e1)
    (hInv : treeOkB e.curTree = true)
    (hnd : notDirAt e path = true) :
    treeOkB e1.curTree = true := by
  obtain ⟨e2, en2, he, hct, hty, hpar⟩ :=
    writeFile_tree_shape hashHex e path content now e1 h
  rw [he, curTree_setEntry, normalizePath_idem, hct]
  exact treeOkB_ainsert_file e.curTree (normalizePath path) en2 hInv hpar
    (notDirAt_alookup e path hnd)

theorem appendFile_treeOk (hashHex : List Nat → List Char) (e : Engine)
    (path : List Char) (c : List Nat) (now : Nat) (e1 : Engine)
    (h : appendFile hashHex e path c now = some e1)
    (hInv : treeOkB e.curTree = true)
    (hnd : notDirAt e path = true) :
    treeOkB e1.curTree = true := by
  have hnd2 : notDirAt e (normalizePath path) = true := by
    rw [notDirAt_norm]
    exact hnd
  rcases hrd : readFile e (normalizePath path) with _ | ex
  · simp only [appendFile, hrd] at h
    exact writeFile_treeOk hashHex e (normalizePath path) (.str c) now e1 h
      hInv hnd2
  · simp only [appendFile, hrd] at h
    exact writeFile_treeOk hashHex e (normalizePath path)
      (.str (utf8DecodeLossy ex ++ c)) now e1 h hInv hnd2

theorem unlink_treeOk (e : Engine) (path : List Char) (e1 : Engine)
    (h : unlink e path = some e1)
    (hInv : treeOkB e.curTree = true)
    (hnd : notDirAt e path = true) :
    treeOkB e1.curTree = true := by
  rcases hex : getEntry e (normalizePath path) with _ | en
  · simp only [unlink, hex] at h
    exact Option.noConfusion h
  · simp only [unlink, hex] at h
    injection h with h
    rw [← h, curTree_deleteEntry, normalizePath_idem]
    have hgen : ∀ (x : Engine), x.curTree = e.curTree →
        treeOkB (aerase x.curTree (normalizePath path)) = true := by
      intro x hx
      rw [hx]
      exact treeOkB_aerase _ _ hInv (notDirAt_alookup e path hnd)
    apply hgen
    split_ifs <;>
      first
        | rfl
        | (split <;>
            first
              | rfl
              | (split <;> rfl))

theorem rm_treeOk (e : Engine) (path : List Char) (r : Bool) (e1 : Engine)
    (h : rm e path r = some e1)
    (hInv : treeOkB e.curTree = true)
    (hnd : notDirAt e path = true) :
    treeOkB e1.curTree = true := by
  rcases hex : getEntry e (normalizePath path) with _ | en
  · simp only [rm, rmF, hex] at h
    exact Option.noConfusion h
  · have hent : ¬ en.type = EKind.directory := by
      have h2 := notDirAt_alookup e path hnd
      unfold getEntry at hex
      rw [normalizePath_idem] at hex
      rw [hex] at h2
      simpa [isDirEntry] using h2
    have hcond : ¬ (en.type = EKind.directory ∧ r = true) :=
      fun hc => hent hc.1
    simp only [rm, rmF, hex, if_neg hcond] at h
    injection h with h
    rw [← h, curTree_deleteEntry, normalizePath_idem]
    have hgen : ∀ (x : Engine), x.curTree = e.curTree →
        treeOkB (aerase x.curTree (normalizePath path)) = true := by
      intro x hx
      rw [hx]
      exact treeOkB_aerase _ _ hInv (notDirAt_alookup e path hnd)
    apply hgen
    split_ifs <;>
      first
        | rfl
        | (split <;>
            first
              | rfl
              | (split <;> rfl))

theorem mv_treeOk (e : Engine) (src dest : List Char) (now : Nat) (e1 : Engine)
    (h : mv e src dest now = some e1)
    (hInv : treeOkB e.curTree = true)
    (hnd : notDirAt e dest = true) :
    treeOkB e1.curTree = true := by
  rcases hsrc : getEntry e src with _ | srcEntry
  · simp only [mv, hsrc] at h
    exact Option.noConfusion h
  · by_cases ht : srcEntry.type = EKind.file
    · rcases hpr : getEntry e (getParentPath (normalizePath dest)) with _ | parent
      · simp only [mv, hsrc, if_pos ht, hpr] at h
        exact Option.noConfusion h
      · by_cases hdir : parent.type ≠ EKind.directory
        · simp only [mv, hsrc, if_pos ht, hpr, if_pos hdir] at h
          exact Option.noConfusion h
        · simp only [mv, hsrc, if_pos ht, hpr, if_neg hdir] at h
          injection h with h
          rw [← h, curTree_deleteEntry, curTree_setEntry, normalizePath_idem]
          have hpard : isDirEntry
              (alookup e.curTree (getParentPath (normalizePath dest))) =
                true := by
            unfold getEntry at hpr
            rw [getParentPath_normalized] at hpr
            rw [hpr]
            have hpt : parent.type = EKind.directory := not_not.mp hdir
            simp [isDirEntry, hpt]
          have h1 : treeOkB (ainsert e.curTree (normalizePath dest)
              { type := srcEntry.type
                parent := some (getParentPath (normalizePath dest))
                name := getBasename (normalizePath dest)
                metadata :=
                  { size := srcEntry.metadata.size
                    mode := srcEntry.metadata.mode
                    mtime := now
                    ctime := srcEntry.metadata.ctime }
                fileDocId := srcEntry.fileDocId
                blobHash := optTruthy srcEntry.blobHash }) = true :=
            treeOkB_ainsert_file e.curTree (normalizePath dest) _ hInv hpard
              (notDirAt_alookup e dest hnd)
          refine treeOkB_aerase _ _ h1 ?_
          rw [alookup_ainsert]
          split_ifs with hq
          · simp [isDirEntry, ht]
          · unfold getEntry at hsrc
            rw [hsrc]
            simp [isDirEntry, ht]
    · simp only [mv, hsrc, if_neg ht] at h
      exact Option.noConfusion h

theorem mkdirF_tree (now : Nat) (r : Bool) : ∀ (fuel : Nat) (e : Engine)
    (path : List Char) (e1 : Engine),
    mkdirF fuel e path r now = some e1 → treeOkB e.curTree = true →
    treeOkB e1.curTree = true ∧
      isDirEntry (alookup e1.curTree (normalizePath path)) = true := by
  intro fuel
  induction fuel with
  | zero =>
    intro e path e1 h hInv
    exact Option.noConfusion h
  | succ fuel ih =>
    intro e path e1 h hInv
    rcases hex : getEntry e (normalizePath path) with _ | existing
    · rcases hpr : getEntry e (getParentPath (normalizePath path)) with _ | parent
      · cases r with
        | false =>
          simp only [mkdirF, hex, hpr, Bool.false_eq_true, if_false] at h
          exact Option.noConfusion h
        | true =>
          rcases hmk : mkdirF fuel e (getParentPath (normalizePath path))
              true now with _ | e2
          · simp only [mkdirF, hex, hpr, if_true, hmk] at h
            exact Option.noConfusion h
          · simp only [mkdirF, hex, hpr, if_true, hmk] at h
            injection h with h
            obtain ⟨hok2, hdir2⟩ := ih e _ e2 hmk hInv
            rw [getParentPath_normalized] at hdir2
            constructor
            · rw [← h, curTree_setEntry, normalizePath_idem]
              exact treeOkB_ainsert_dir e2.curTree (normalizePath path) _ rfl
                hok2 (Or.inr (Or.inr hdir2))
            · rw [← h, curTree_setEntry, normalizePath_idem, alookup_ainsert,
                if_pos rfl]
              rfl
      · by_cases hdir : parent.type ≠ EKind.directory
        · simp only [mkdirF, hex, hpr, if_pos hdir] at h
          exact Option.noConfusion h
        · simp only [mkdirF, hex, hpr, if_neg hdir] at h
          injection h with h
          have hpard : isDirEntry
              (alookup e.curTree (getParentPath (normalizePath path))) =
                true := by
            unfold getEntry at hpr
            rw [getParentPath_normalized] at hpr
            rw [hpr]
            have hpt : parent.type = EKind.directory := not_not.mp hdir
            simp [isDirEntry, hpt]
          constructor
          · rw [← h, curTree_setEntry, normalizePath_idem]
            exact treeOkB_ainsert_dir e.curTree (normalizePath path) _ rfl
              hInv (Or.inr (Or.inr hpard))
          · rw [← h, curTree_setEntry, normalizePath_idem, alookup_ainsert,
              if_pos rfl]
            rfl
    · by_cases ht : existing.type = EKind.directory
      · simp only [mkdirF, hex, if_pos ht] at h
        injection h with h
        refine ⟨by rw [← h]; exact hInv, ?_⟩
        rw [← h]
        unfold getEntry at hex
        rw [normalizePath_idem] at hex
        rw [hex]
        simp [isDirEntry, ht]
      · simp only [mkdirF, hex, if_neg ht] at h
        exact Option.noConfusion h

theorem mkdir_treeOk (e : Engine) (path : List Char) (r : Bool) (now : Nat)
    (e1 : Engine) (h : mkdir e path r now = some e1)
    (hInv : treeOkB e.curTree = true) :
    treeOkB e1.curTree = true :=
  (mkdirF_tree now r _ e path e1 h hInv).1

theorem chmod_treeOk (e : Engine) (path : List Char) (m : Nat) (e1 : Engine)
    (h : chmod e path m = some e1)
    (hInv : treeOkB e.curTree = true) :
    treeOkB e1.curTree = true := by
  rcases hex : getEntry e (normalizePath path) with _ | en
  · simp only [chmod, hex] at h
    exact Option.noConfusion h
  · have hlk : alookup e.curTree (normalizePath path) = some en := by
      unfold getEntry at hex
      rwa [normalizePath_idem] at hex
    simp only [chmod, hex, hlk] at h
    injection h with h
    rw [← h, curTree_setTree]
    exact treeOkB_replace e.curTree (normalizePath path) en _ hInv hlk rfl

theorem utimes_treeOk (e : Engine) (path : List Char) (a m : Nat) (e1 : Engine)
    (h : utimes e path a m = some e1)
    (hInv : treeOkB e.curTree = true) :
    treeOkB e1.curTree = true := by
  rcases hex : getEntry e (normalizePath path) with _ | en
  · simp only [utimes, hex] at h
    exact Option.noConfusion h
  · have hlk : alookup e.curTree (normalizePath path) = some en := by
      unfold getEntry at hex
      rwa [normalizePath_idem] at hex
    simp only [utimes, hex, hlk] at h
    injection h with h
    rw [← h, curTree_setTree]
    exact treeOkB_replace e.curTree (normalizePath path) en _ hInv hlk rfl

theorem cp_treeOk (hashHex : List Nat → List Char) (e : Engine)
    (src dest : List Char) (r : Bool) (now : Nat) (e1 : Engine)
    (h : cp hashHex e src dest r now = some e1)
    (hInv : treeOkB e.curTree = true)
    (hf : isFileAt e src = true)
    (hnd : notDirAt e dest = true) :
    treeOkB e1.curTree = true := by
  rcases hsrc : getEntry e src with _ | srcEntry
  · unfold isFileAt at hf
    rw [hsrc] at hf
    exact Bool.noConfusion hf
  · have ht : srcEntry.type = EKind.file := by
      unfold isFileAt at hf
      rw [hsrc] at hf
      simpa using hf
    simp only [cp, cpF, hsrc, if_pos ht] at h
    rcases hrd : readFile e src with _ | content
    · rw [hrd] at h
      exact Option.noConfusion h
    · rw [hrd] at h
      have h2 : writeFile hashHex e dest (.bytes content) now = some e1 := h
      exact writeFile_treeOk hashHex e dest (.bytes content) now e1 h2 hInv hnd

/-- A fresh engine with directory `/d` containing the text file `/d/f`. -/
def sampleNestedEngine : Engine :=
  let e0 := createEngine emptyStore 0
  let e1 := (mkdir e0 ("/d".toList) false 1).getD e0
  (writeFile (fun _ => ['h']) e1 ("/d/f".toList) (.str [104]) 2).getD e1

/-- C2 counterexample: the tree invariant holds, `rm("/d")` without the
recursive flag succeeds on the directory `/d`, and afterwards the invariant
is broken: the child entry `/d/f` survives while its parent entry is
gone. -/
theorem claim2_tree_invariant_counterexample :
    treeOkB sampleNestedEngine.curTree = true ∧
    isDirAt sampleNestedEngine ("/d".toList) = true ∧
    (rm sampleNestedEngine ("/d".toList) false).isSome = true ∧
    (rm sampleNestedEngine ("/d".toList) false).map
      (fun s => treeOkB s.curTree) = some false ∧
    (rm sampleNestedEngine ("/d".toList) false).map
      (fun s => (getEntry s ("/d/f".toList)).isSome) = some true ∧
    (rm sampleNestedEngine ("/d".toList) false).map
      (fun s => (getEntry s ("/d".toList)).isSome) = some false :=
  ⟨by decide, by decide, by decide, by decide, by decide, by decide⟩

/-- C2 (amended).  The tree invariant (root `"/"` is a directory; every
stored non-root path has a directory stored at its parent path) is
preserved by `mkdir`, `chmod` and `utimes` unconditionally, and by
`writeFile`, `appendFile`, `rm`, `unlink` and `mv` when the written,
removed or overwritten target is not a directory, and by `cp` of a file
onto a non-directory target.  (Removing or overwriting a directory can
orphan its children, as the counterexample shows.) -/
theorem claim2_tree_invariant_amended (hashHex : List Nat → List Char)
    (e : Engine) (p q : List Char) (c : FileContent) (t : List Nat) (r : Bool)
    (m a now : Nat)
    (hInv : treeOkB e.curTree = true) :
    (notDirAt e p = true →
      treeOkAfter (writeFile hashHex e p c now) = true) ∧
    (notDirAt e p = true →
      treeOkAfter (appendFile hashHex e p t now) = true) ∧
    treeOkAfter (mkdir e p r now) = true ∧
    (notDirAt e p = true → treeOkAfter (rm e p r) = true) ∧
    (notDirAt e p = true → treeOkAfter (unlink e p) = true) ∧
    (notDirAt e q = true → treeOkAfter (mv e p q now) = true) ∧
    (isFileAt e p = true → notDirAt e q = true →
      treeOkAfter (cp hashHex e p q r now) = true) ∧
    treeOkAfter (chmod e p m) = true ∧
    treeOkAfter (utimes e p a m) = true := by
  refine ⟨?_, ?_, ?_, ?_, ?_, ?_, ?_, ?_, ?_⟩
  · intro hnd
    rcases hw : writeFile hashHex e p c now with _ | e1
    · rfl
    · exact writeFile_treeOk hashHex e p c now e1 hw hInv hnd
  · intro hnd
    rcases hw : appendFile hashHex e p t now with _ | e1
    · rfl
    · exact appendFile_treeOk hashHex e p t now e1 hw hInv hnd
  · rcases hw : mkdir e p r now with _ | e1
    · rfl
    · exact mkdir_treeOk e p r now e1 hw hInv
  · intro hnd
    rcases hw : rm e p r with _ | e1
    · rfl
    · exact rm_treeOk e p r e1 hw hInv hnd
  · intro hnd
    rcases hw : unlink e p with _ | e1
    · rfl
    · exact unlink_treeOk e p e1 hw hInv hnd
  · intro hnd
    rcases hw : mv e p q now with _ | e1
    · rfl
    · exact mv_treeOk e p q now e1 hw hInv hnd
  · intro hf hnd
    rcases hw : cp hashHex e p q r now with _ | e1
    · rfl
    · exact cp_treeOk hashHex e p q r now e1 hw hInv hf hnd
  · rcases hw : chmod e p m with _ | e1
    · rfl
    · exact chmod_treeOk e p m e1 hw hInv
  · rcases hw : utimes e p a m with _ | e1
    · rfl
    · exact utimes_treeOk e p a m e1 hw hInv

/-- C2 witness: all nine operations on the engine holding `/d/f`, acting on
the file `/d/f` and the absent destination `/g`. -/
theorem claim2_tree_invariant_witness :
    (treeOkB sampleNestedEngine.curTree = true) ∧
    (notDirAt sampleNestedEngine ("/d/f".toList) = true) ∧
    (isFileAt sampleNestedEngine ("/d/f".toList) = true) ∧
    (notDirAt sampleNestedEngine ("/g".toList) = true) ∧
    treeOkAfter (writeFile (fun _ => ['h']) sampleNestedEngine
      ("/d/f".toList) (.str [120]) 9) = true ∧
    treeOkAfter (appendFile (fun _ => ['h']) sampleNestedEngine
      ("/d/f".toList) [120] 9) = true ∧
    treeOkAfter (mkdir sampleNestedEngine ("/d/f".toList) false 9) = true ∧
    treeOkAfter (rm sampleNestedEngine ("/d/f".toList) false) = true ∧
    treeOkAfter (unlink sampleNestedEngine ("/d/f".toList)) = true ∧
    treeOkAfter (mv sampleNestedEngine ("/d/f".toList) ("/g".toList) 9) =
      true ∧
    treeOkAfter (cp (fun _ => ['h']) sampleNestedEngine ("/d/f".toList)
      ("/g".toList) false 9) = true ∧
    treeOkAfter (chmod sampleNestedEngine ("/d/f".toList) 448) = true ∧
    treeOkAfter (utimes sampleNestedEngine ("/d/f".toList) 7 9) = true := by
  have hC := claim2_tree_invariant_amended (fun _ => ['h']) sampleNestedEngine
    ("/d/f".toList) ("/g".toList) (.str [120]) [120] false 448 7 9 (by decide)
  exact ⟨by decide, by decide, by decide, by decide,
    hC.1 (by decide), hC.2.1 (by decide), hC.2.2.1, hC.2.2.2.1 (by decide),
    hC.2.2.2.2.1 (by decide), hC.2.2.2.2.2.1 (by decide),
    hC.2.2.2.2.2.2.1 (by decide) (by decide), hC.2.2.2.2.2.2.2.1,
    hC.2.2.2.2.2.2.2.2⟩
